import Mathlib

/-!
# Verification of the Graph server core (adjacency matrix + algorithm suite + registry)

Shallow embedding of `src/Algo/Graph.hpp` (matrix store `graph::AdjMat`, the
algorithm suite `graph::algorithms`) and `src/Application/GraphManager.hpp`
(the handle registry).

Modelling conventions:
* the row-major `uint16_t` buffer `data_` is modelled as a flat map
  `data : ℕ → ℕ`; the cell `(i, j)` lives at flat offset `i * n + j`, exactly
  as in the source;
* `int32_t` distance arithmetic is modelled in `ℤ` with the sentinel
  `INF = 2^31 - 1` (`INT32_MAX`); this is faithful on every execution that
  does not overflow the 32-bit range;
* `double` centrality arithmetic is modelled in `ℚ` (exact field arithmetic);
* C++ exceptions are modelled by an explicit error value: both failure sites
  of the matrix store throw `std::out_of_range` in the source, so both map to
  `ErrKind.outOfRange`, distinguished only by message — the spec's abstract
  taxonomy (`InvalidOperation` for diagonal writes) is represented as a second
  constructor so that the distinction is statable;
* the `priority_queue` with `std::greater<>` is modelled as a list from which
  `popMin` removes the lexicographically least `(dist, node)` pair, which is
  exactly the element `top()` returns;
* the 32-bit size arithmetic of the constructor (`n * n` computed in
  `uint32_t`) and of the flat-offset computation is modelled with an explicit
  `% 2^32` where the numeric claim (C10) is about precisely that overflow;
* loops whose termination is data dependent run on explicit fuel; the fuel
  budgets are proved sufficient where a claim needs the loop to have drained.
-/

namespace GraphSpec

/-! ## Definitions: matrix store -/

/-- `INT32_MAX`, the unreachable-distance sentinel of the algorithm suite. -/
def INF : ℤ := 2 ^ 31 - 1

/-- `NO_EDGE`: weight `0` means "no edge stored". -/
def NO_EDGE : ℕ := 0

/-- Error taxonomy.  The C++ source only ever throws `std::out_of_range`
(mapped to `outOfRange`); `invalidOperation` and `resourceExhaustion` are the
spec's abstract kinds, present so that claims about them are statable. -/
inductive ErrKind where
  | outOfRange
  | invalidOperation
  | resourceExhaustion
deriving DecidableEq, Repr

/-- An error value: the exception kind plus its message. -/
structure Err where
  kind : ErrKind
  msg : String
deriving DecidableEq, Repr

/-- The matrix store `graph::AdjMat`: size `n` and the flat row-major buffer
`data_` (cell `(i,j)` at flat offset `i * n + j`). -/
structure AdjMat where
  n : ℕ
  data : ℕ → ℕ

namespace AdjMat

/-- Read of the flat buffer at cell `(i, j)`: `data_[i * n_ + j]`. -/
def entry (m : AdjMat) (i j : ℕ) : ℕ := m.data (i * m.n + j)

/-- `AdjMat::check_bounds`: `i >= n_` fails, otherwise succeeds. -/
def check_bounds (m : AdjMat) (i : ℕ) : Bool := decide (i < m.n)

/-- Overwrite one flat buffer cell. -/
def write (m : AdjMat) (k w : ℕ) : AdjMat :=
  { m with data := Function.update m.data k w }

/-- `AdjMat::set(i, j, w)`.  Returns the error (if any) together with the
matrix state after the call; both `throw` sites precede any buffer write, so
on error the returned state is the unmodified receiver. -/
def set (m : AdjMat) (i j w : ℕ) : Except Err Unit × AdjMat :=
  if ¬(m.check_bounds i ∧ m.check_bounds j) then
    (.error ⟨.outOfRange, "Index out of bounds"⟩, m)
  else if i = j then
    (.error ⟨.outOfRange, "Should not modify diagonal"⟩, m)
  else
    (.ok (), (m.write (i * m.n + j) w))

/-- `AdjMat::bi_set(i, j, w)`: like `set` but writes both `(i,j)` and
`(j,i)`. -/
def bi_set (m : AdjMat) (i j w : ℕ) : Except Err Unit × AdjMat :=
  if ¬(m.check_bounds i ∧ m.check_bounds j) then
    (.error ⟨.outOfRange, "Index out of bounds"⟩, m)
  else if i = j then
    (.error ⟨.outOfRange, "Should not modify diagonal"⟩, m)
  else
    (.ok (), ((m.write (i * m.n + j) w).write (j * m.n + i) w))

/-- `AdjMat::operator()(i, j) const`: bounds-checked read, diagonal allowed. -/
def get (m : AdjMat) (i j : ℕ) : Except Err ℕ :=
  if ¬(m.check_bounds i ∧ m.check_bounds j) then
    .error ⟨.outOfRange, "Index out of bounds"⟩
  else
    .ok (m.entry i j)

end AdjMat

/-- The constructor `AdjMat(n)`: `make_unique<uint16_t[]>(n * n)` value
initialises the whole buffer to `0`. -/
def construct (n : ℕ) : AdjMat := ⟨n, fun _ => 0⟩

/-! ## Definitions: 32-bit size arithmetic of the constructor (claim C10)

In the source `n_` has type `uint32_t`, so the length `n * n` handed to
`make_unique` and the flat offset `i * n_ + j` are both computed modulo
`2^32`. -/

/-- Number of `uint16_t` cells actually allocated by `AdjMat(n)`:
`n * n` in 32-bit unsigned arithmetic. -/
def allocLen (n : ℕ) : ℕ := (n * n) % 2 ^ 32

/-- The flat offset `i * n_ + j` as computed in `uint32_t` arithmetic. -/
def flatOffset32 (n i j : ℕ) : ℕ := (i * n + j) % 2 ^ 32

/-! ## Definitions: write sequences over one matrix (claims C4, C8) -/

/-- One edge-insertion call against a matrix: directed `set` or `bi_set`. -/
inductive WriteOp where
  | dSet (i j w : ℕ)
  | bSet (i j w : ℕ)

/-- Apply one write call, keeping the resulting matrix state (a failing call
leaves the matrix untouched). -/
def applyWrite (m : AdjMat) : WriteOp → AdjMat
  | .dSet i j w => (m.set i j w).2
  | .bSet i j w => (m.bi_set i j w).2

/-- Apply a sequence of write calls in order. -/
def applyWrites (m : AdjMat) (ops : List WriteOp) : AdjMat :=
  ops.foldl applyWrite m

/-- The diagonal-is-zero invariant, phrased on the flat buffer. -/
def DiagZero (m : AdjMat) : Prop := ∀ i, i < m.n → m.entry i i = 0

/-! ## Definitions: `GraphManager::bash_set` (claim C4)

The registry looks the matrix up under an exclusive lock and then applies
each `{u, v, weight}` line in order; an exception from the matrix store
propagates out of the loop, leaving every line already applied in place. -/

/-- One `{u, v, weight}` line of `GraphManager::bash_set`. -/
structure Line where
  u : ℕ
  v : ℕ
  w : ℕ

/-- One loop iteration of `bash_set`: `bi_set` or `set` per the `bi` flag. -/
def bashApply (m : AdjMat) (bi : Bool) (l : Line) : Except Err Unit × AdjMat :=
  if bi then m.bi_set l.u l.v l.w else m.set l.u l.v l.w

/-- `GraphManager::bash_set` on the owned matrix: applies each line in order
and stops at (and propagates) the first error; the matrix keeps every write
made before the failing line. -/
def bash_set (m : AdjMat) (lines : List Line) (bi : Bool) :
    Except Err Unit × AdjMat :=
  match lines with
  | [] => (.ok (), m)
  | l :: ls =>
    match bashApply m bi l with
    | (.error e, m1) => (.error e, m1)
    | (.ok _, m1) => bash_set m1 ls bi

/-- Keep-going fold over lines (used to describe the successfully applied
prefix of a `bash_set` call). -/
def applyLines (m : AdjMat) (lines : List Line) (bi : Bool) : AdjMat :=
  lines.foldl (fun acc l => (bashApply acc bi l).2) m

/-! ## Definitions: the handle registry `GraphManager` (claim C9)

`next_id_` is a `std::atomic<uint64_t>` initialised to `1`; `create` returns
`next_id_++` (64-bit post-increment, which wraps modulo `2^64`) and registers
the handle; `destroy` erases the entry without touching the counter. -/

/-- Registry state: the 64-bit counter value and the live handles. -/
structure RegState where
  next : ℕ
  live : List ℕ

/-- Initial registry state: `next_id_{1}`, empty map. -/
def regInit : RegState := ⟨1, []⟩

/-- The registry operations a caller can issue (queries do not touch the
handle state and are omitted). -/
inductive RegOp where
  | create (size : ℕ)
  | destroy (id : ℕ)

/-- `GraphManager::create`: returns the old counter value and increments the
counter in 64-bit unsigned arithmetic. -/
def regCreate (s : RegState) : ℕ × RegState :=
  (s.next, ⟨(s.next + 1) % 2 ^ 64, s.next :: s.live⟩)

/-- Run a sequence of registry operations, returning the final state and the
handles returned by the `create` calls, in order. -/
def runReg (s : RegState) : List RegOp → RegState × List ℕ
  | [] => (s, [])
  | .create _ :: ops =>
    let c := regCreate s
    let r := runReg c.2 ops
    (r.1, c.1 :: r.2)
  | .destroy id :: ops => runReg ⟨s.next, s.live.erase id⟩ ops

/-- The handles returned by the `create` calls of an operation sequence,
starting from the freshly constructed registry. -/
def handlesOf (ops : List RegOp) : List ℕ := (runReg regInit ops).2

/-- Number of `create` calls in the sequence. -/
def countCreates (ops : List RegOp) : ℕ :=
  ops.countP fun op => match op with | .create _ => true | .destroy _ => false

/-! ## Definitions: neighbour helpers of the algorithm suite (claim C2) -/

/-- `graph::algorithms::get_from(mat, node)`: the nodes `j ≠ node` with a
non-sentinel entry in `node`'s row, in increasing order. -/
def get_from (m : AdjMat) (node : ℕ) : Except Err (List ℕ) :=
  if m.n ≤ node then .error ⟨.outOfRange, "Node index out of bounds"⟩
  else .ok (((List.range m.n).filter fun j =>
    decide (j ≠ node) && decide (m.entry node j ≠ NO_EDGE)))

/-- `graph::algorithms::get_to(mat, node)`: the nodes `i ≠ node` with a
non-sentinel entry in `node`'s column, in increasing order. -/
def get_to (m : AdjMat) (node : ℕ) : Except Err (List ℕ) :=
  if m.n ≤ node then .error ⟨.outOfRange, "Node index out of bounds"⟩
  else .ok (((List.range m.n).filter fun i =>
    decide (i ≠ node) && decide (m.entry i node ≠ NO_EDGE)))

/-- `graph::algorithms::get_neighbours(mat, node, bi)`: with `bi` true only
the row is consulted; with `bi` false a node qualifies when either its row or
its column entry is non-sentinel. -/
def get_neighbours (m : AdjMat) (node : ℕ) (bi : Bool) : Except Err (List ℕ) :=
  if m.n ≤ node then .error ⟨.outOfRange, "Node index out of bounds"⟩
  else .ok (((List.range m.n).filter fun i =>
    decide (i ≠ node) &&
      (if bi then decide (m.entry node i ≠ NO_EDGE)
       else decide (m.entry node i ≠ NO_EDGE) ||
            decide (m.entry i node ≠ NO_EDGE))))

/-! ## Definitions: triangle counting (claim C6)

`count_triangles(mat, directed)` (Graph.hpp:238-291).  The undirected scan
runs `i` over all rows, `j` over `(i, n)` with `mat(i, j)` present, and counts
the `k` in `(j, n)` with both `row_i[k]` and `row_j[k]` present; the loop
bounds appear here as guards under `Finset` sums.  The directed scan runs over
all ordered pairs `i ≠ j` with edge `i→j` and counts the `k ∉ {i, j}` with
`row_j[k]` present and the `ColIter` value `data[k*n+i]` present, then divides
the raw total by 3. -/

/-- Raw directed scan total (the value of `count` before `count /= 3`). -/
def count_triangles_directed_raw (m : AdjMat) : ℕ :=
  ∑ i ∈ Finset.range m.n, ∑ j ∈ Finset.range m.n,
    if i ≠ j ∧ m.entry i j ≠ NO_EDGE then
      ((Finset.range m.n).filter fun k =>
        k ≠ i ∧ k ≠ j ∧ m.entry j k ≠ NO_EDGE ∧ m.entry k i ≠ NO_EDGE).card
    else 0

/-- `graph::algorithms::count_triangles`. -/
def count_triangles (m : AdjMat) (directed : Bool) : ℕ :=
  if !directed then
    ∑ i ∈ Finset.range m.n, ∑ j ∈ Finset.range m.n,
      if i < j ∧ m.entry i j ≠ NO_EDGE then
        ((Finset.range m.n).filter fun k =>
          j < k ∧ m.entry i k ≠ NO_EDGE ∧ m.entry j k ≠ NO_EDGE).card
      else 0
  else
    count_triangles_directed_raw m / 3

/-- The set of index triples `i < j < k` whose three upper-triangle entries
are all present: the undirected triangles, each counted once. -/
def undirTriangles (m : AdjMat) : Finset (ℕ × ℕ × ℕ) :=
  ((Finset.range m.n) ×ˢ (Finset.range m.n) ×ˢ (Finset.range m.n)).filter
    fun t => t.1 < t.2.1 ∧ t.2.1 < t.2.2 ∧
      m.entry t.1 t.2.1 ≠ NO_EDGE ∧ m.entry t.1 t.2.2 ≠ NO_EDGE ∧
      m.entry t.2.1 t.2.2 ≠ NO_EDGE

/-- All ordered triples `(i, j, k)` of pairwise distinct in-range nodes
carrying the directed 3-cycle `i→j→k→i`. -/
def dirCycleTriples (m : AdjMat) : Finset (ℕ × ℕ × ℕ) :=
  ((Finset.range m.n) ×ˢ (Finset.range m.n) ×ˢ (Finset.range m.n)).filter
    fun t => t.1 ≠ t.2.1 ∧ t.2.1 ≠ t.2.2 ∧ t.2.2 ≠ t.1 ∧
      m.entry t.1 t.2.1 ≠ NO_EDGE ∧ m.entry t.2.1 t.2.2 ≠ NO_EDGE ∧
      m.entry t.2.2 t.1 ≠ NO_EDGE

/-- Directed 3-cycles counted once: the rotation representative whose first
vertex is the least of the three. -/
def dirCycles (m : AdjMat) : Finset (ℕ × ℕ × ℕ) :=
  (dirCycleTriples m).filter fun t => t.1 < t.2.1 ∧ t.1 < t.2.2

/-! ## Definitions: shortest paths (claims C5, C7)

`shortest_path(mat, start, weighed)` (Graph.hpp:294-338).  The unweighed mode
is a FIFO breadth-first search; the weighed mode is Dijkstra on a
`priority_queue<pair<int32_t,uint32_t>, ..., greater<>>` whose `top()` is the
lexicographically least `(dist, node)` pair, with stale entries (`d >
dist[u]`) discarded on pop.  The data-dependent `while` loops run on explicit
fuel; the budgets `bfsFuel` / `dijFuel` dominate the loop-variant bounds
proved below, so the queues are provably drained. -/

/-- BFS working state: the distance array and the FIFO queue. -/
structure BfsState where
  dist : ℕ → ℤ
  q : List ℕ

/-- `dist` seeded with `start = 0`, everything else `INT32_MAX`; `start`
enqueued. -/
def bfsInit (start : ℕ) : BfsState :=
  ⟨fun v => if v = start then 0 else INF, [start]⟩

/-- Body of the BFS `while` loop for a popped node `u`: scan all `v`,
skipping `v = u`, and discover `v` (set `dist[v] = dist[u] + 1`, enqueue)
when an edge exists and `dist[v]` is still the sentinel. -/
def bfsStep (m : AdjMat) (u : ℕ) (s : BfsState) : BfsState :=
  (List.range m.n).foldl
    (fun st v =>
      if v = u then st
      else if m.entry u v ≠ NO_EDGE ∧ st.dist v = INF then
        { dist := Function.update st.dist v (st.dist u + 1), q := st.q ++ [v] }
      else st) s

/-- The BFS `while (!q.empty())` loop, on fuel. -/
def bfsRun (m : AdjMat) : ℕ → BfsState → BfsState
  | 0, s => s
  | f + 1, s =>
    match s.q with
    | [] => s
    | u :: rest => bfsRun m f (bfsStep m u ⟨s.dist, rest⟩)

/-- Lexicographic comparison on `(dist, node)` pairs: the strict-weak order
`std::greater<>` sorts the `priority_queue` by, so `top()` is the least
pair. -/
def pairLeB (a b : ℤ × ℕ) : Bool :=
  decide (a.1 < b.1) || (decide (a.1 = b.1) && decide (a.2 ≤ b.2))

/-- Remove and return the least `(dist, node)` pair — the element `top()`
denotes and `pop()` removes. -/
def popMin : List (ℤ × ℕ) → Option ((ℤ × ℕ) × List (ℤ × ℕ))
  | [] => none
  | p :: ps =>
    let best := ps.foldl (fun acc x => if pairLeB x acc then x else acc) p
    some (best, (p :: ps).erase best)

/-- Dijkstra working state: the distance array and the priority queue. -/
structure DijState where
  dist : ℕ → ℤ
  pq : List (ℤ × ℕ)

/-- `dist` seeded with `start = 0`, everything else `INT32_MAX`; `(0, start)`
pushed. -/
def dijInit (start : ℕ) : DijState :=
  ⟨fun v => if v = start then 0 else INF, [(0, start)]⟩

/-- Body of the Dijkstra loop for a popped node `u`: relax every edge
`u → v`, pushing improved `(alt, v)` entries. -/
def dijRelax (m : AdjMat) (u : ℕ) (s : DijState) : DijState :=
  (List.range m.n).foldl
    (fun st v =>
      if v = u then st
      else if m.entry u v = NO_EDGE then st
      else if st.dist u + (m.entry u v : ℤ) < st.dist v then
        { dist := Function.update st.dist v (st.dist u + (m.entry u v : ℤ)),
          pq := st.pq ++ [(st.dist u + (m.entry u v : ℤ), v)] }
      else st) s

/-- The Dijkstra `while (!pq.empty())` loop, on fuel: pop the least pair,
discard it when stale (`d > dist[u]`), otherwise relax. -/
def dijRun (m : AdjMat) : ℕ → DijState → DijState
  | 0, s => s
  | f + 1, s =>
    match popMin s.pq with
    | none => s
    | some (p, rest) =>
      if s.dist p.2 < p.1 then dijRun m f ⟨s.dist, rest⟩
      else dijRun m f (dijRelax m p.2 ⟨s.dist, rest⟩)

/-- Fuel budget for the BFS loop (the loop variant `#INF-cells + |queue|`
starts at `n + 1` at most). -/
def bfsFuel (n : ℕ) : ℕ := n + 2

/-- Fuel budget for the Dijkstra loop (the loop variant
`Σ dist.toNat + |pq|` starts below `n * 2^31 + 1`). -/
def dijFuel (n : ℕ) : ℕ := n * 2 ^ 31 + 2

/-- `graph::algorithms::shortest_path`. -/
def shortest_path (m : AdjMat) (start : ℕ) (weighed : Bool) :
    Except Err (List ℤ) :=
  if m.n ≤ start then .error ⟨.outOfRange, "Node index out of bounds"⟩
  else .ok ((List.range m.n).map
    (if weighed then (dijRun m (dijFuel m.n) (dijInit start)).dist
     else (bfsRun m (bfsFuel m.n) (bfsInit start)).dist))

/-! ## Definitions: reachability (claims C5, C7) -/

/-- One traversable edge as the algorithms see it: both endpoints in range,
off-diagonal, non-sentinel entry. -/
def Estep (m : AdjMat) (u v : ℕ) : Prop :=
  u < m.n ∧ v < m.n ∧ u ≠ v ∧ m.entry u v ≠ NO_EDGE

instance (m : AdjMat) (u v : ℕ) : Decidable (Estep m u v) := by
  unfold Estep
  infer_instance

/-- `v` is reachable from `start` along stored edges. -/
def Reaches (m : AdjMat) (start v : ℕ) : Prop :=
  Relation.ReflTransGen (Estep m) start v

/-- `v` is reachable from `start` by a path of at most `k` edges. -/
def reachIn (m : AdjMat) (start : ℕ) : ℕ → ℕ → Prop
  | 0, v => v = start
  | k + 1, v => reachIn m start k v ∨ ∃ u, reachIn m start k u ∧ Estep m u v

/-- One saturation step of the reachable set. -/
def reachStep (m : AdjMat) (S : Finset ℕ) : Finset ℕ :=
  S ∪ (Finset.range m.n).filter (fun v => ∃ u ∈ S, Estep m u v)

/-- The set of nodes reachable within `k` steps (`reachIn` as a `Finset`). -/
def reachSet (m : AdjMat) (start : ℕ) : ℕ → Finset ℕ
  | 0 => {start}
  | k + 1 => reachStep m (reachSet m start k)

/-- Soundness invariant of the BFS loop: the start keeps distance 0, every
finite cell is genuinely reachable, all cells are nonnegative, and queue
members are reachable in-range nodes. -/
def InvB7 (m : AdjMat) (start : ℕ) (s : BfsState) : Prop :=
  s.dist start = 0 ∧
  (∀ v, s.dist v ≠ INF → Reaches m start v) ∧
  (∀ v, 0 ≤ s.dist v) ∧
  (∀ u ∈ s.q, Reaches m start u ∧ u < m.n)

/-- Soundness invariant of the Dijkstra loop. -/
def InvD7 (m : AdjMat) (start : ℕ) (s : DijState) : Prop :=
  s.dist start = 0 ∧
  (∀ v, s.dist v ≠ INF → Reaches m start v) ∧
  (∀ v, 0 ≤ s.dist v) ∧
  (∀ p ∈ s.pq, Reaches m start p.2 ∧ p.2 < m.n)

/-- The exact contract both search modes satisfy on a matrix whose stored
edge weights are all `1`: each in-range cell is the least path length from
`start` (with unreachable cells at the sentinel). -/
def QProp (m : AdjMat) (start : ℕ) (d : ℕ → ℤ) : Prop :=
  ∀ v, v < m.n → 0 ≤ d v ∧ d v ≤ INF ∧
    (d v ≠ INF → reachIn m start (d v).toNat v) ∧
    (∀ k, reachIn m start k v → d v ≤ (k : ℤ))

/-- `u`'s neighbourhood is fully relaxed for unit weights: every out-edge
target sits within distance `dist u + 1`. -/
def StableU (m : AdjMat) (d : ℕ → ℤ) (u : ℕ) : Prop :=
  ∀ w, w < m.n → w ≠ u → m.entry u w ≠ NO_EDGE → d w ≠ INF ∧ d w ≤ d u + 1

/-- Full BFS loop invariant (claim C5): soundness, the label-count bound, and
the classic monotone-queue facts that make BFS labels minimal. -/
structure QInvB (m : AdjMat) (start : ℕ) (s : BfsState) : Prop where
  d0 : s.dist start = 0
  sound : ∀ v, s.dist v ≠ INF →
    v < m.n ∧ 0 ≤ s.dist v ∧ reachIn m start (s.dist v).toNat v
  dbound : ∀ v, s.dist v ≠ INF →
    (s.dist v).toNat <
      ((Finset.range m.n).filter (fun y => s.dist y ≠ INF)).card
  qmem : ∀ u ∈ s.q, u < m.n ∧ s.dist u ≠ INF
  qsorted : s.q.Pairwise (fun a b => s.dist a ≤ s.dist b)
  qspan : ∀ a ∈ s.q, ∀ b ∈ s.q, s.dist b ≤ s.dist a + 1
  qnodup : s.q.Nodup
  stable : ∀ u, u < m.n → s.dist u ≠ INF → u ∉ s.q → StableU m s.dist u
  procMin : ∀ u, u < m.n → s.dist u ≠ INF → u ∉ s.q →
    ∀ a ∈ s.q, s.dist u ≤ s.dist a

/-- `y` has a usable (non-stale) queue entry. -/
def GoodEntry (s : DijState) (y : ℕ) : Prop :=
  ∃ p ∈ s.pq, p.2 = y ∧ p.1 ≤ s.dist y

/-- `u`'s neighbourhood is fully relaxed for unit weights, without the
finiteness conjunct (Dijkstra form). -/
def StableW (m : AdjMat) (d : ℕ → ℤ) (u : ℕ) : Prop :=
  ∀ w, w < m.n → w ≠ u → m.entry u w ≠ NO_EDGE → d w ≤ d u + 1

/-- Full Dijkstra loop invariant for unit weights (claim C5). -/
structure QInvD (m : AdjMat) (start : ℕ) (s : DijState) : Prop where
  d0 : s.dist start = 0
  dpos : ∀ v, 0 ≤ s.dist v ∧ s.dist v ≤ INF
  sound : ∀ v, s.dist v ≠ INF →
    v < m.n ∧ reachIn m start (s.dist v).toNat v
  pqok : ∀ p ∈ s.pq, p.2 < m.n ∧ 0 ≤ p.1 ∧ p.1 < INF ∧ s.dist p.2 ≤ p.1
  main : ∀ u, u < m.n → s.dist u ≠ INF → GoodEntry s u ∨ StableW m s.dist u
  keyC : ∀ p ∈ s.pq, ∀ y, y < m.n → s.dist y ≠ INF → ¬ GoodEntry s y →
    s.dist y ≤ p.1

/-- BFS loop variant: undiscovered cells plus queue length. -/
def phiB (m : AdjMat) (s : BfsState) : ℕ :=
  ((Finset.range m.n).filter (fun v => s.dist v = INF)).card + s.q.length

/-- Dijkstra loop variant: total label mass plus queue length. -/
def phiD (m : AdjMat) (s : DijState) : ℕ :=
  (∑ v ∈ Finset.range m.n, (s.dist v).toNat) + s.pq.length

/-! ## Definitions: betweenness centrality (claim C1)

`betweenness_centrality(mat, weighed)` (Graph.hpp:341-417), Brandes'
algorithm.  `double` arithmetic is modelled exactly in `ℚ`.  The operation
takes no `directed` flag; after all sources are processed every accumulated
value is divided by 2 unconditionally. -/

/-- Per-source traversal state, unweighed (BFS) mode: distances, path counts
`sigma`, predecessor lists, the completion stack (most recent first) and the
FIFO queue. -/
structure BBfsState where
  dist : ℕ → ℤ
  sigma : ℕ → ℕ
  preds : ℕ → List ℕ
  stk : List ℕ
  q : List ℕ

/-- Inner loop of the unweighed traversal for popped node `v`: discover `w`
on first touch, and account `sigma` / `preds` when `w` sits one level below
`v`. -/
def bbfsInner (m : AdjMat) (v : ℕ) (st : BBfsState) (w : ℕ) : BBfsState :=
  if w = v then st
  else if m.entry v w = NO_EDGE then st
  else
    let st1 :=
      if st.dist w = INF then
        { st with dist := Function.update st.dist w (st.dist v + 1),
                  q := st.q ++ [w] }
      else st
    if st1.dist w = st1.dist v + 1 then
      { st1 with
          sigma := Function.update st1.sigma w (st1.sigma w + st1.sigma v),
          preds := Function.update st1.preds w (st1.preds w ++ [v]) }
    else st1

/-- The unweighed traversal loop: pop, push onto the completion stack, scan
all `w`. -/
def bbfsRun (m : AdjMat) : ℕ → BBfsState → BBfsState
  | 0, s => s
  | f + 1, s =>
    match s.q with
    | [] => s
    | v :: rest =>
      bbfsRun m f
        ((List.range m.n).foldl (bbfsInner m v)
          { s with q := rest, stk := v :: s.stk })

/-- Per-source traversal state, weighed (Dijkstra) mode. -/
structure BDijState where
  dist : ℕ → ℤ
  sigma : ℕ → ℕ
  preds : ℕ → List ℕ
  stk : List ℕ
  pq : List (ℤ × ℕ)

/-- Inner loop of the weighed traversal for popped node `v`: strict
improvement resets `sigma`/`preds`, an equal-length alternative accumulates
them. -/
def bdijInner (m : AdjMat) (v : ℕ) (st : BDijState) (w : ℕ) : BDijState :=
  if w = v then st
  else if m.entry v w = NO_EDGE then st
  else if st.dist v + (m.entry v w : ℤ) < st.dist w then
    { st with
        dist := Function.update st.dist w (st.dist v + (m.entry v w : ℤ)),
        pq := st.pq ++ [(st.dist v + (m.entry v w : ℤ), w)],
        sigma := Function.update st.sigma w (st.sigma v),
        preds := Function.update st.preds w [v] }
  else if st.dist v + (m.entry v w : ℤ) = st.dist w then
    { st with
        sigma := Function.update st.sigma w (st.sigma w + st.sigma v),
        preds := Function.update st.preds w (st.preds w ++ [v]) }
  else st

/-- The weighed traversal loop: pop the least pair, discard stale entries,
otherwise push onto the completion stack and scan all `w`. -/
def bdijRun (m : AdjMat) : ℕ → BDijState → BDijState
  | 0, s => s
  | f + 1, s =>
    match popMin s.pq with
    | none => s
    | some (p, rest) =>
      if s.dist p.2 < p.1 then bdijRun m f { s with pq := rest }
      else
        bdijRun m f
          ((List.range m.n).foldl (bdijInner m p.2)
            { s with pq := rest, stk := p.2 :: s.stk })

/-- Run the per-source traversal from `s`, returning the `sigma`, `preds`
and completion-stack data the accumulation phase consumes. -/
def brandesSource (m : AdjMat) (weighed : Bool) (s : ℕ) :
    (ℕ → ℕ) × (ℕ → List ℕ) × List ℕ :=
  if weighed then
    let st := bdijRun m (dijFuel m.n)
      { dist := fun v => if v = s then 0 else INF,
        sigma := fun v => if v = s then 1 else 0,
        preds := fun _ => [], stk := [], pq := [(0, s)] }
    (st.sigma, st.preds, st.stk)
  else
    let st := bbfsRun m (bfsFuel m.n)
      { dist := fun v => if v = s then 0 else INF,
        sigma := fun v => if v = s then 1 else 0,
        preds := fun _ => [], stk := [], q := [s] }
    (st.sigma, st.preds, st.stk)

/-- The dependency-accumulation phase for one source: pop the completion
stack, update `delta` along the predecessor lists, and add `delta[w]` to the
centrality of every popped `w ≠ s`.  Returns the final `delta` and
centrality arrays. -/
def brandesAccum (sigma : ℕ → ℕ) (preds : ℕ → List ℕ) (s : ℕ) :
    List ℕ → (ℕ → ℚ) → (ℕ → ℚ) → (ℕ → ℚ) × (ℕ → ℚ)
  | [], delta, c => (delta, c)
  | w :: rest, delta, c =>
    let delta1 := (preds w).foldl
      (fun d v => Function.update d v
        (d v + ((sigma v : ℚ) / (sigma w : ℚ)) * (1 + d w))) delta
    let c1 := if w ≠ s then Function.update c w (c w + delta1 w) else c
    brandesAccum sigma preds s rest delta1 c1

/-- `graph::algorithms::betweenness_centrality`: accumulate over all `n`
sources, then divide every value by 2. -/
def betweenness_centrality (m : AdjMat) (weighed : Bool) : List ℚ :=
  let cfinal := (List.range m.n).foldl
    (fun c s =>
      let t := brandesSource m weighed s
      (brandesAccum t.1 t.2.1 s t.2.2 (fun _ => 0) c).2)
    (fun _ => 0)
  (List.range m.n).map (fun i => cfinal i / 2)

/-- The centrality increment a single source contributes: the accumulation
phase run on a zero centrality array. -/
def brandesSourceInc (m : AdjMat) (weighed : Bool) (s : ℕ) : ℕ → ℚ :=
  (brandesAccum (brandesSource m weighed s).1 (brandesSource m weighed s).2.1
    s (brandesSource m weighed s).2.2 (fun _ => 0) (fun _ => 0)).2

/-! ## Supporting lemmas: matrix store -/

theorem set_error_state {m : AdjMat} {i j w : ℕ} {e : Err}
    (h : (m.set i j w).1 = .error e) : (m.set i j w).2 = m := by
  unfold AdjMat.set at h ⊢
  split_ifs at h ⊢ <;> simp_all

theorem bi_set_error_state {m : AdjMat} {i j w : ℕ} {e : Err}
    (h : (m.bi_set i j w).1 = .error e) : (m.bi_set i j w).2 = m := by
  unfold AdjMat.bi_set at h ⊢
  split_ifs at h ⊢ <;> simp_all

theorem set_n (m : AdjMat) (i j w : ℕ) : (m.set i j w).2.n = m.n := by
  unfold AdjMat.set
  split_ifs <;> rfl

theorem bi_set_n (m : AdjMat) (i j w : ℕ) : (m.bi_set i j w).2.n = m.n := by
  unfold AdjMat.bi_set
  split_ifs <;> rfl

/-- Row-major offsets are injective once the column index is below the row
stride: this is what lets the flat-buffer model speak about cells. -/
theorem flat_index_inj {n i j k l : ℕ} (hj : j < n) (hl : l < n)
    (h : i * n + j = k * n + l) : i = k ∧ j = l := by
  have hn : 0 < n := lt_of_le_of_lt (Nat.zero_le j) hj
  have h1 : (i * n + j) % n = j := by
    rw [Nat.add_mod, Nat.mul_mod_left]
    simp [Nat.mod_eq_of_lt hj]
  have h2 : (k * n + l) % n = l := by
    rw [Nat.add_mod, Nat.mul_mod_left]
    simp [Nat.mod_eq_of_lt hl]
  have hjl : j = l := by rw [← h1, ← h2, h]
  subst hjl
  have hik : i * n = k * n := by omega
  exact ⟨Nat.eq_of_mul_eq_mul_right hn hik, rfl⟩

theorem applyWrite_n (m : AdjMat) (op : WriteOp) : (applyWrite m op).n = m.n := by
  cases op <;> simp [applyWrite, set_n, bi_set_n]

theorem applyWrites_n (m : AdjMat) (ops : List WriteOp) :
    (applyWrites m ops).n = m.n := by
  induction ops generalizing m with
  | nil => rfl
  | cons op ops ih => simp [applyWrites, List.foldl_cons] at *; rw [ih, applyWrite_n]

theorem write_offdiag_entry (m : AdjMat) {i j : ℕ} (_hi : i < m.n) (hj : j < m.n)
    (hij : i ≠ j) (w : ℕ) {k : ℕ} (hk : k < m.n) :
    (m.write (i * m.n + j) w).entry k k = m.entry k k := by
  unfold AdjMat.write AdjMat.entry
  simp only
  rw [Function.update_noteq]
  intro h
  rcases flat_index_inj hk hj h with ⟨h1, h2⟩
  exact hij (h1.symm.trans h2)

/-- Full characterization of `AdjMat::set`: error taxonomy and state effect. -/
theorem set_result (m : AdjMat) (i j w : ℕ) :
    m.set i j w =
      if i < m.n ∧ j < m.n then
        (if i = j then (.error ⟨.outOfRange, "Should not modify diagonal"⟩, m)
         else (.ok (), m.write (i * m.n + j) w))
      else (.error ⟨.outOfRange, "Index out of bounds"⟩, m) := by
  unfold AdjMat.set AdjMat.check_bounds
  split_ifs <;> simp_all

/-- Full characterization of `AdjMat::bi_set`. -/
theorem bi_set_result (m : AdjMat) (i j w : ℕ) :
    m.bi_set i j w =
      if i < m.n ∧ j < m.n then
        (if i = j then (.error ⟨.outOfRange, "Should not modify diagonal"⟩, m)
         else (.ok (), (m.write (i * m.n + j) w).write (j * m.n + i) w))
      else (.error ⟨.outOfRange, "Index out of bounds"⟩, m) := by
  unfold AdjMat.bi_set AdjMat.check_bounds
  split_ifs <;> simp_all

/-- Bounds-checked read succeeds in bounds and returns the raw entry. -/
theorem get_ok {m : AdjMat} {i j : ℕ} (hi : i < m.n) (hj : j < m.n) :
    m.get i j = .ok (m.entry i j) := by
  unfold AdjMat.get AdjMat.check_bounds
  rw [if_neg]
  simp [hi, hj]

theorem applyWrite_diagZero {m : AdjMat} (h : DiagZero m) (op : WriteOp) :
    DiagZero (applyWrite m op) := by
  have hwrite : ∀ i j w, i < m.n → j < m.n → i ≠ j →
      DiagZero (m.write (i * m.n + j) w) := by
    intro i j w hi hj hij k hk
    have hk' : k < m.n := hk
    rw [write_offdiag_entry m hi hj hij w hk']
    exact h k hk'
  have hset : ∀ i j w, DiagZero (m.set i j w).2 := by
    intro i j w
    rw [show (m.set i j w).2 = (m.set i j w).2 from rfl, set_result]
    split_ifs with h1 h2
    · exact h
    · exact hwrite i j w h1.1 h1.2 h2
    · exact h
  have hbiset : ∀ i j w, DiagZero (m.bi_set i j w).2 := by
    intro i j w
    rw [show (m.bi_set i j w).2 = (m.bi_set i j w).2 from rfl, bi_set_result]
    split_ifs with h1 h2
    · exact h
    · intro k hk
      have hk' : k < m.n := hk
      have hn1 : (m.write (i * m.n + j) w).n = m.n := rfl
      rw [show ((m.write (i * m.n + j) w).write (j * m.n + i) w).entry k k
            = (m.write (i * m.n + j) w).entry k k from
          write_offdiag_entry (m.write (i * m.n + j) w) h1.2 h1.1
            (Ne.symm h2) w (by rw [hn1]; exact hk')]
      exact hwrite i j w h1.1 h1.2 h2 k hk'
    · exact h
  cases op with
  | dSet i j w => exact hset i j w
  | bSet i j w => exact hbiset i j w

theorem applyWrites_diagZero {m : AdjMat} (h : DiagZero m) (ops : List WriteOp) :
    DiagZero (applyWrites m ops) := by
  induction ops generalizing m with
  | nil => exact h
  | cons op ops ih => exact ih (applyWrite_diagZero h op)

theorem construct_diagZero (n : ℕ) : DiagZero (construct n) := by
  intro i _
  rfl

/-! ## Supporting lemmas: `bash_set` -/

theorem bashApply_error_state {m : AdjMat} {bi : Bool} {l : Line} {e : Err}
    (h : (bashApply m bi l).1 = .error e) : (bashApply m bi l).2 = m := by
  unfold bashApply at h ⊢
  cases bi with
  | false => exact set_error_state h
  | true => exact bi_set_error_state h

/-- A failing `bash_set` stops at the first failing line `k`; the returned
matrix state is the fold of the lines before `k`, which all succeeded. -/
theorem bash_set_error_decomp (lines : List Line) :
    ∀ (m : AdjMat) (bi : Bool) (e : Err),
      (bash_set m lines bi).1 = .error e →
      ∃ k, ∃ hk : k < lines.length,
        (∀ j (hj : j < k),
          (bashApply (applyLines m (lines.take j) bi) bi
            (lines.get ⟨j, Nat.lt_trans hj hk⟩)).1 = .ok ()) ∧
        (bashApply (applyLines m (lines.take k) bi) bi
          (lines.get ⟨k, hk⟩)).1 = .error e ∧
        (bash_set m lines bi).2 = applyLines m (lines.take k) bi := by
  induction lines with
  | nil =>
    intro m bi e h
    simp [bash_set] at h
  | cons l ls ih =>
    intro m bi e h
    have hcons : bash_set m (l :: ls) bi =
        match bashApply m bi l with
        | (.error e1, m1) => (.error e1, m1)
        | (.ok _, m1) => bash_set m1 ls bi := rfl
    rcases hba : bashApply m bi l with ⟨res, m1⟩
    cases res with
    | error e1 =>
      rw [hcons, hba] at h
      have he : e1 = e := by simpa using h
      subst he
      have hres : (bashApply m bi l).1 = .error e1 := by rw [hba]
      have hm1 : m1 = m := by
        have := bashApply_error_state hres
        rw [hba] at this
        exact this
      refine ⟨0, Nat.succ_pos _, ?_, ?_, ?_⟩
      · intro j hj
        omega
      · simpa [applyLines] using hres
      · rw [hcons, hba]
        subst hm1
        simp [applyLines]
    | ok u =>
      have hres : (bashApply m bi l).1 = .ok u := by rw [hba]
      have hm1 : (bashApply m bi l).2 = m1 := by rw [hba]
      have h2 : (bash_set m1 ls bi).1 = .error e := by
        rw [hcons, hba] at h
        exact h
      rcases ih m1 bi e h2 with ⟨k, hk, hpre, hfail, hstate⟩
      refine ⟨k + 1, Nat.succ_lt_succ hk, ?_, ?_, ?_⟩
      · intro j hj
        cases j with
        | zero =>
          simpa [applyLines] using hres
        | succ j' =>
          have hj' : j' < k := Nat.lt_of_succ_lt_succ hj
          have := hpre j' hj'
          simpa [applyLines, List.take_succ_cons, List.foldl_cons, hm1] using this
      · have := hfail
        simpa [applyLines, List.take_succ_cons, List.foldl_cons, hm1] using this
      · have hb : (bash_set m (l :: ls) bi).2 = (bash_set m1 ls bi).2 := by
          rw [hcons, hba]
        rw [hb, hstate]
        simp [applyLines, List.take_succ_cons, List.foldl_cons, hm1]

/-! ## Supporting lemmas: registry -/

theorem map_add_range_succ (v n : ℕ) :
    (List.range (n + 1)).map (fun k => v + k) =
      v :: (List.range n).map (fun k => v + 1 + k) := by
  rw [List.range_succ_eq_map, List.map_cons, List.map_map]
  refine (List.cons_eq_cons).mpr ⟨rfl, ?_⟩
  apply List.map_congr_left
  intro a _
  show v + (a + 1) = v + 1 + a
  omega

theorem runReg_handles (ops : List RegOp) :
    ∀ v live, v + countCreates ops ≤ 2 ^ 64 →
      (runReg ⟨v, live⟩ ops).2 = (List.range (countCreates ops)).map (v + ·) := by
  induction ops with
  | nil => intro v live _; simp [runReg, countCreates]
  | cons op ops ih =>
    intro v live hv
    cases op with
    | destroy id =>
      have hc : countCreates (RegOp.destroy id :: ops) = countCreates ops := by
        simp [countCreates]
      rw [hc] at hv ⊢
      simpa [runReg] using ih v (live.erase id) hv
    | create size =>
      have hc : countCreates (RegOp.create size :: ops) = countCreates ops + 1 := by
        simp [countCreates]
      rw [hc] at hv ⊢
      rcases Nat.eq_zero_or_pos (countCreates ops) with h0 | hpos
      · have htail : (runReg ⟨(v + 1) % 2 ^ 64, v :: live⟩ ops).2 = [] := by
          have hmlt : (v + 1) % 2 ^ 64 < 2 ^ 64 :=
            Nat.mod_lt _ (by positivity)
          have h1 := ih ((v + 1) % 2 ^ 64) (v :: live) (by omega)
          rw [h0] at h1
          simpa using h1
        rw [h0]
        simp only [runReg, regCreate]
        rw [htail]
        rw [show List.range 1 = [0] from rfl]
        simp
      · have hv1 : v + 1 < 2 ^ 64 := by omega
        have hmod : (v + 1) % 2 ^ 64 = v + 1 := Nat.mod_eq_of_lt hv1
        have htail := ih ((v + 1) % 2 ^ 64) (v :: live) (by rw [hmod]; omega)
        simp only [runReg, regCreate]
        rw [htail, hmod, map_add_range_succ]

theorem runReg_replicate (K : ℕ) :
    ∀ v live, v < 2 ^ 64 →
      (runReg ⟨v, live⟩ (List.replicate K (RegOp.create 1))).2 =
        (List.range K).map (fun k => (v + k) % 2 ^ 64) := by
  induction K with
  | zero => intro v live _; simp [runReg]
  | succ K ih =>
    intro v live hv
    rw [List.replicate_succ]
    simp only [runReg, regCreate]
    rw [ih ((v + 1) % 2 ^ 64) (v :: live) (Nat.mod_lt _ (by positivity))]
    rw [List.range_succ_eq_map, List.map_cons, List.map_map]
    refine (List.cons_eq_cons).mpr ⟨(Nat.mod_eq_of_lt (by omega)).symm, ?_⟩
    apply List.map_congr_left
    intro a _
    show ((v + 1) % 2 ^ 64 + a) % 2 ^ 64 = (v + (a + 1)) % 2 ^ 64
    rw [Nat.mod_add_mod]
    congr 1
    omega

/-! ## Supporting lemmas: triangle counting -/

theorem card_filter_triple (n : ℕ) (P : ℕ × ℕ × ℕ → Prop) [DecidablePred P] :
    (((Finset.range n) ×ˢ (Finset.range n) ×ˢ (Finset.range n)).filter P).card
      = ∑ i ∈ Finset.range n, ∑ j ∈ Finset.range n, ∑ k ∈ Finset.range n,
          if P (i, j, k) then 1 else 0 := by
  rw [Finset.card_filter, Finset.sum_product]
  refine Finset.sum_congr rfl fun i _ => ?_
  rw [Finset.sum_product]

theorem sum_if_card (n : ℕ) (c : Prop) [Decidable c] (Q : ℕ → Prop)
    [DecidablePred Q] :
    (if c then ((Finset.range n).filter Q).card else 0)
      = ∑ k ∈ Finset.range n, if c ∧ Q k then 1 else 0 := by
  split_ifs with hc
  · rw [Finset.card_filter]
    exact Finset.sum_congr rfl fun k _ => by simp [hc]
  · symm
    exact Finset.sum_eq_zero fun k _ => by simp [hc]

theorem count_triangles_undirected_eq (m : AdjMat) :
    count_triangles m false = (undirTriangles m).card := by
  have hunf : count_triangles m false
      = ∑ i ∈ Finset.range m.n, ∑ j ∈ Finset.range m.n,
          if i < j ∧ m.entry i j ≠ NO_EDGE then
            ((Finset.range m.n).filter fun k =>
              j < k ∧ m.entry i k ≠ NO_EDGE ∧ m.entry j k ≠ NO_EDGE).card
          else 0 := rfl
  rw [hunf, undirTriangles, card_filter_triple]
  refine Finset.sum_congr rfl fun i _ => ?_
  refine Finset.sum_congr rfl fun j _ => ?_
  rw [sum_if_card]
  refine Finset.sum_congr rfl fun k _ => ?_
  refine if_congr ?_ rfl rfl
  constructor
  · rintro ⟨⟨h1, h2⟩, h3, h4, h5⟩
    exact ⟨h1, h3, h2, h4, h5⟩
  · rintro ⟨h1, h2, h3, h4, h5⟩
    exact ⟨⟨h1, h3⟩, h2, h4, h5⟩

theorem count_triangles_directed_raw_eq (m : AdjMat) :
    count_triangles_directed_raw m = (dirCycleTriples m).card := by
  rw [count_triangles_directed_raw, dirCycleTriples, card_filter_triple]
  refine Finset.sum_congr rfl fun i _ => ?_
  refine Finset.sum_congr rfl fun j _ => ?_
  rw [sum_if_card]
  refine Finset.sum_congr rfl fun k _ => ?_
  refine if_congr ?_ rfl rfl
  constructor
  · rintro ⟨⟨h1, h2⟩, h3, h4, h5, h6⟩
    exact ⟨h1, fun hh => h4 hh.symm, h3, h2, h5, h6⟩
  · rintro ⟨h1, h2, h3, h4, h5, h6⟩
    exact ⟨⟨h1, h4⟩, h3, fun hh => h2 hh.symm, h5, h6⟩

theorem mem_dirCycleTriples_ne {m : AdjMat} {t : ℕ × ℕ × ℕ}
    (ht : t ∈ dirCycleTriples m) :
    t.1 ≠ t.2.1 ∧ t.2.1 ≠ t.2.2 ∧ t.2.2 ≠ t.1 := by
  simp only [dirCycleTriples, Finset.mem_filter] at ht
  tauto

/-- Each directed 3-cycle is represented by exactly three ordered triples:
its three rotations, exactly one of which starts at the least vertex. -/
theorem dirCycleTriples_card (m : AdjMat) :
    (dirCycleTriples m).card = 3 * (dirCycles m).card := by
  have hsplit1 := Finset.filter_card_add_filter_neg_card_eq_card
    (s := dirCycleTriples m) (p := fun t => t.1 < t.2.1 ∧ t.1 < t.2.2)
  have hsplit2 := Finset.filter_card_add_filter_neg_card_eq_card
    (s := (dirCycleTriples m).filter fun t => ¬(t.1 < t.2.1 ∧ t.1 < t.2.2))
    (p := fun t => t.2.1 < t.2.2 ∧ t.2.1 < t.1)
  have e2 : ((dirCycleTriples m).filter
        fun t => ¬(t.1 < t.2.1 ∧ t.1 < t.2.2)).filter
          (fun t => t.2.1 < t.2.2 ∧ t.2.1 < t.1)
      = (dirCycleTriples m).filter fun t => t.2.1 < t.2.2 ∧ t.2.1 < t.1 := by
    rw [Finset.filter_filter]
    refine Finset.filter_congr fun t _ => ?_
    constructor
    · rintro ⟨_, h⟩
      exact h
    · intro h
      exact ⟨by omega, h⟩
  have e3 : ((dirCycleTriples m).filter
        fun t => ¬(t.1 < t.2.1 ∧ t.1 < t.2.2)).filter
          (fun t => ¬(t.2.1 < t.2.2 ∧ t.2.1 < t.1))
      = (dirCycleTriples m).filter fun t => t.2.2 < t.1 ∧ t.2.2 < t.2.1 := by
    rw [Finset.filter_filter]
    refine Finset.filter_congr fun t ht => ?_
    have hd := mem_dirCycleTriples_ne ht
    omega
  have hb2 : ((dirCycleTriples m).filter
        fun t => t.2.1 < t.2.2 ∧ t.2.1 < t.1).card = (dirCycles m).card := by
    apply Finset.card_nbij' (fun t => (t.2.1, t.2.2, t.1))
      (fun t => (t.2.2, t.1, t.2.1))
    · intro t ht
      simp only [dirCycles, dirCycleTriples, Finset.mem_filter,
        Finset.mem_product, Finset.mem_range] at ht ⊢
      tauto
    · intro t ht
      simp only [dirCycles, dirCycleTriples, Finset.mem_filter,
        Finset.mem_product, Finset.mem_range] at ht ⊢
      tauto
    · intro t _
      rfl
    · intro t _
      rfl
  have hb3 : ((dirCycleTriples m).filter
        fun t => t.2.2 < t.1 ∧ t.2.2 < t.2.1).card = (dirCycles m).card := by
    apply Finset.card_nbij' (fun t => (t.2.2, t.1, t.2.1))
      (fun t => (t.2.1, t.2.2, t.1))
    · intro t ht
      simp only [dirCycles, dirCycleTriples, Finset.mem_filter,
        Finset.mem_product, Finset.mem_range] at ht ⊢
      tauto
    · intro t ht
      simp only [dirCycles, dirCycleTriples, Finset.mem_filter,
        Finset.mem_product, Finset.mem_range] at ht ⊢
      tauto
    · intro t _
      rfl
    · intro t _
      rfl
  have hC : (dirCycles m).card = ((dirCycleTriples m).filter
      fun t => t.1 < t.2.1 ∧ t.1 < t.2.2).card := rfl
  have he2 := congrArg Finset.card e2
  have he3 := congrArg Finset.card e3
  omega

/-! ## Supporting lemmas: generic fold invariants and the priority queue -/

theorem foldl_inv {α σ : Type} (P : σ → Prop) (Q : α → Prop) (f : σ → α → σ)
    (l : List α) (hl : ∀ a ∈ l, Q a)
    (hf : ∀ s a, Q a → P s → P (f s a)) :
    ∀ s, P s → P (l.foldl f s) := by
  induction l with
  | nil => intro s hs; exact hs
  | cons a l ih =>
    intro s hs
    exact ih (fun x hx => hl x (List.mem_cons_of_mem a hx))
      (f s a) (hf s a (hl a (List.mem_cons_self a l)) hs)

theorem foldl_min_le (l : List (ℤ × ℕ)) :
    ∀ a : ℤ × ℕ,
      (l.foldl (fun acc x => if pairLeB x acc then x else acc) a).1 ≤ a.1 ∧
      ∀ x ∈ l,
        (l.foldl (fun acc x => if pairLeB x acc then x else acc) a).1 ≤ x.1 := by
  induction l with
  | nil => intro a; exact ⟨le_refl _, fun x hx => absurd hx (List.not_mem_nil x)⟩
  | cons b l ih =>
    intro a
    have hstep : ((if pairLeB b a then b else a) : ℤ × ℕ).1 ≤ a.1 ∧
        ((if pairLeB b a then b else a) : ℤ × ℕ).1 ≤ b.1 := by
      unfold pairLeB
      split_ifs with hb
      · simp only [Bool.or_eq_true, Bool.and_eq_true, decide_eq_true_eq] at hb
        rcases hb with hlt | ⟨heq, _⟩
        · exact ⟨le_of_lt hlt, le_refl _⟩
        · exact ⟨le_of_eq heq, le_refl _⟩
      · simp only [Bool.or_eq_true, Bool.and_eq_true, decide_eq_true_eq,
          not_or, not_and] at hb
        refine ⟨le_refl _, ?_⟩
        rcases hb with ⟨h1, _⟩
        omega
    rcases ih (if pairLeB b a then b else a) with ⟨h1, h2⟩
    refine ⟨le_trans h1 hstep.1, fun x hx => ?_⟩
    rcases List.mem_cons.mp hx with rfl | hx
    · exact le_trans h1 hstep.2
    · exact h2 x hx

theorem foldl_min_mem (l : List (ℤ × ℕ)) :
    ∀ a : ℤ × ℕ,
      (l.foldl (fun acc x => if pairLeB x acc then x else acc) a) = a ∨
      (l.foldl (fun acc x => if pairLeB x acc then x else acc) a) ∈ l := by
  induction l with
  | nil => intro a; exact Or.inl rfl
  | cons b l ih =>
    intro a
    rcases ih (if pairLeB b a then b else a) with h | h
    · rw [List.foldl_cons, h]
      split_ifs with hb
      · exact Or.inr (List.mem_cons_self _ _)
      · exact Or.inl rfl
    · exact Or.inr (List.mem_cons_of_mem _ h)

theorem popMin_mem {l : List (ℤ × ℕ)} {p : ℤ × ℕ} {rest : List (ℤ × ℕ)}
    (h : popMin l = some (p, rest)) : p ∈ l := by
  cases l with
  | nil => simp [popMin] at h
  | cons a as =>
    simp only [popMin, Option.some.injEq, Prod.mk.injEq] at h
    rcases h with ⟨hp, _⟩
    rcases foldl_min_mem as a with h1 | h1
    · rw [← hp, h1]; exact List.mem_cons_self _ _
    · rw [← hp]; exact List.mem_cons_of_mem _ h1

theorem popMin_rest {l : List (ℤ × ℕ)} {p : ℤ × ℕ} {rest : List (ℤ × ℕ)}
    (h : popMin l = some (p, rest)) : rest = l.erase p := by
  cases l with
  | nil => simp [popMin] at h
  | cons a as =>
    simp only [popMin, Option.some.injEq, Prod.mk.injEq] at h
    rcases h with ⟨hp, hr⟩
    rw [← hr, hp]

theorem popMin_min {l : List (ℤ × ℕ)} {p : ℤ × ℕ} {rest : List (ℤ × ℕ)}
    (h : popMin l = some (p, rest)) : ∀ x ∈ l, p.1 ≤ x.1 := by
  cases l with
  | nil => simp [popMin] at h
  | cons a as =>
    simp only [popMin, Option.some.injEq, Prod.mk.injEq] at h
    rcases h with ⟨hp, _⟩
    intro x hx
    rcases List.mem_cons.mp hx with rfl | hx
    · rw [← hp]; exact (foldl_min_le as x).1
    · rw [← hp]; exact (foldl_min_le as a).2 x hx

theorem popMin_none {l : List (ℤ × ℕ)} (h : popMin l = none) : l = [] := by
  cases l with
  | nil => rfl
  | cons a as => simp [popMin] at h

/-! ## Supporting lemmas: shortest-path soundness (claim C7) -/

theorem INF_pos : (0 : ℤ) < INF := by
  unfold INF
  norm_num

theorem bfsStep_inv7 {m : AdjMat} {start u : ℕ} {s : BfsState}
    (hu : Reaches m start u ∧ u < m.n) (h : InvB7 m start s) :
    InvB7 m start (bfsStep m u s) := by
  unfold bfsStep
  refine foldl_inv (InvB7 m start) (fun v => v < m.n) _ _
    (fun v hv => List.mem_range.mp hv) ?_ s h
  intro st v hv hst
  rcases hst with ⟨h0, hreach, hpos, hq⟩
  split_ifs with hvu hcond
  · exact ⟨h0, hreach, hpos, hq⟩
  · have hstep : Estep m u v :=
      ⟨hu.2, hv, fun hh => hvu hh.symm, hcond.1⟩
    have hSne : start ≠ v := by
      intro hs
      have hz : st.dist v = 0 := by rw [← hs]; exact h0
      rw [hz] at hcond
      exact absurd hcond.2 (ne_of_lt INF_pos)
    refine ⟨?_, ?_, ?_, ?_⟩
    · show Function.update st.dist v (st.dist u + 1) start = 0
      rw [Function.update_noteq hSne]
      exact h0
    · intro x hx
      have hx2 : Function.update st.dist v (st.dist u + 1) x ≠ INF := hx
      rcases eq_or_ne x v with rfl | hxv
      · exact Relation.ReflTransGen.tail hu.1 hstep
      · rw [Function.update_noteq hxv] at hx2
        exact hreach x hx2
    · intro x
      show 0 ≤ Function.update st.dist v (st.dist u + 1) x
      rcases eq_or_ne x v with rfl | hxv
      · rw [Function.update_same]
        have := hpos u
        omega
      · rw [Function.update_noteq hxv]
        exact hpos x
    · intro x hx
      have hx2 : x ∈ st.q ++ [v] := hx
      rcases List.mem_append.mp hx2 with hx3 | hx3
      · exact hq x hx3
      · rcases List.mem_singleton.mp hx3 with rfl
        exact ⟨Relation.ReflTransGen.tail hu.1 hstep, hv⟩
  · exact ⟨h0, hreach, hpos, hq⟩

theorem bfsRun_inv7 (m : AdjMat) (start : ℕ) :
    ∀ (f : ℕ) (s : BfsState), InvB7 m start s →
      InvB7 m start (bfsRun m f s) := by
  intro f
  induction f with
  | zero => intro s h; exact h
  | succ f ih =>
    intro s h
    show InvB7 m start (bfsRun m (f + 1) s)
    rw [bfsRun]
    cases hq : s.q with
    | nil => exact h
    | cons u rest =>
      have hu := h.2.2.2 u (by rw [hq]; exact List.mem_cons_self _ _)
      refine ih _ (bfsStep_inv7 hu ?_)
      refine ⟨h.1, h.2.1, h.2.2.1, ?_⟩
      intro x hx
      exact h.2.2.2 x (by rw [hq]; exact List.mem_cons_of_mem _ hx)

theorem dijRelax_inv7 {m : AdjMat} {start u : ℕ} {s : DijState}
    (hu : Reaches m start u ∧ u < m.n) (h : InvD7 m start s) :
    InvD7 m start (dijRelax m u s) := by
  unfold dijRelax
  refine foldl_inv (InvD7 m start) (fun v => v < m.n) _ _
    (fun v hv => List.mem_range.mp hv) ?_ s h
  intro st v hv hst
  rcases hst with ⟨h0, hreach, hpos, hq⟩
  split_ifs with hvu hedge halt
  · exact ⟨h0, hreach, hpos, hq⟩
  · exact ⟨h0, hreach, hpos, hq⟩
  · have hstep : Estep m u v :=
      ⟨hu.2, hv, fun hh => hvu hh.symm, hedge⟩
    have hnn : (0 : ℤ) ≤ st.dist u + (m.entry u v : ℤ) := by
      have h1 := hpos u
      have h2 : (0 : ℤ) ≤ (m.entry u v : ℤ) := Int.ofNat_nonneg _
      omega
    have hSne : start ≠ v := by
      intro hs
      have hz : st.dist v = 0 := by rw [← hs]; exact h0
      rw [hz] at halt
      omega
    refine ⟨?_, ?_, ?_, ?_⟩
    · show Function.update st.dist v (st.dist u + (m.entry u v : ℤ)) start = 0
      rw [Function.update_noteq hSne]
      exact h0
    · intro x hx
      have hx2 : Function.update st.dist v
          (st.dist u + (m.entry u v : ℤ)) x ≠ INF := hx
      rcases eq_or_ne x v with rfl | hxv
      · exact Relation.ReflTransGen.tail hu.1 hstep
      · rw [Function.update_noteq hxv] at hx2
        exact hreach x hx2
    · intro x
      show 0 ≤ Function.update st.dist v (st.dist u + (m.entry u v : ℤ)) x
      rcases eq_or_ne x v with rfl | hxv
      · rw [Function.update_same]
        exact hnn
      · rw [Function.update_noteq hxv]
        exact hpos x
    · intro p hp
      have hp2 : p ∈ st.pq ++ [(st.dist u + (m.entry u v : ℤ), v)] := hp
      rcases List.mem_append.mp hp2 with hp3 | hp3
      · exact hq p hp3
      · rcases List.mem_singleton.mp hp3 with rfl
        exact ⟨Relation.ReflTransGen.tail hu.1 hstep, hv⟩
  · exact ⟨h0, hreach, hpos, hq⟩

theorem dijRun_inv7 (m : AdjMat) (start : ℕ) :
    ∀ (f : ℕ) (s : DijState), InvD7 m start s →
      InvD7 m start (dijRun m f s) := by
  intro f
  induction f with
  | zero => intro s h; exact h
  | succ f ih =>
    intro s h
    show InvD7 m start (dijRun m (f + 1) s)
    rw [dijRun]
    cases hpop : popMin s.pq with
    | none => exact h
    | some pr =>
      rcases pr with ⟨p, rest⟩
      have hp := h.2.2.2 p (popMin_mem hpop)
      have hrest : ∀ x ∈ rest, Reaches m start x.2 ∧ x.2 < m.n := by
        intro x hx
        refine h.2.2.2 x ?_
        rw [popMin_rest hpop] at hx
        exact List.mem_of_mem_erase hx
      dsimp only
      split_ifs with hstale
      · exact ih _ ⟨h.1, h.2.1, h.2.2.1, hrest⟩
      · exact ih _ (dijRelax_inv7 hp ⟨h.1, h.2.1, h.2.2.1, hrest⟩)

/-! ## Supporting lemmas: closed forms of the inner scan loops (claim C5) -/

theorem bfsStep_gen (m : AdjMat) (u : ℕ) (s : BfsState) :
    ∀ l : List ℕ, l.Nodup →
      l.foldl
        (fun st v =>
          if v = u then st
          else if m.entry u v ≠ NO_EDGE ∧ st.dist v = INF then
            { dist := Function.update st.dist v (st.dist u + 1),
              q := st.q ++ [v] }
          else st) s
      = ⟨fun w =>
          if w ∈ l ∧ w ≠ u ∧ m.entry u w ≠ NO_EDGE ∧ s.dist w = INF
          then s.dist u + 1 else s.dist w,
        s.q ++ l.filter
          (fun w => decide (w ≠ u ∧ m.entry u w ≠ NO_EDGE ∧ s.dist w = INF))⟩ := by
  intro l
  induction l using List.reverseRecOn with
  | nil =>
    intro _
    refine congrArg₂ BfsState.mk ?_ ?_
    · funext w
      rw [if_neg]
      rintro ⟨hw, _⟩
      exact List.not_mem_nil w hw
    · simp
  | append_singleton l x ih =>
    intro hnd
    have hnd2 : l.Nodup ∧ x ∉ l := by
      rw [List.nodup_append] at hnd
      refine ⟨hnd.1, fun hx => hnd.2.2 hx (List.mem_singleton_self x)⟩
    rw [List.foldl_append, List.foldl_cons, List.foldl_nil, ih hnd2.1]
    have hdx : (⟨fun w =>
        if w ∈ l ∧ w ≠ u ∧ m.entry u w ≠ NO_EDGE ∧ s.dist w = INF
        then s.dist u + 1 else s.dist w,
      s.q ++ l.filter
        (fun w => decide (w ≠ u ∧ m.entry u w ≠ NO_EDGE ∧ s.dist w = INF))⟩
        : BfsState).dist x = s.dist x := by
      show (if x ∈ l ∧ x ≠ u ∧ m.entry u x ≠ NO_EDGE ∧ s.dist x = INF
        then s.dist u + 1 else s.dist x) = s.dist x
      rw [if_neg]
      rintro ⟨hx, _⟩
      exact hnd2.2 hx
    have hdu : (⟨fun w =>
        if w ∈ l ∧ w ≠ u ∧ m.entry u w ≠ NO_EDGE ∧ s.dist w = INF
        then s.dist u + 1 else s.dist w,
      s.q ++ l.filter
        (fun w => decide (w ≠ u ∧ m.entry u w ≠ NO_EDGE ∧ s.dist w = INF))⟩
        : BfsState).dist u = s.dist u := by
      show (if u ∈ l ∧ u ≠ u ∧ m.entry u u ≠ NO_EDGE ∧ s.dist u = INF
        then s.dist u + 1 else s.dist u) = s.dist u
      rw [if_neg]
      rintro ⟨_, hu, _⟩
      exact hu rfl
    by_cases hxu : x = u
    · rw [if_pos hxu]
      refine congrArg₂ BfsState.mk ?_ ?_
      · funext w
        by_cases hw : w ∈ l ∧ w ≠ u ∧ m.entry u w ≠ NO_EDGE ∧ s.dist w = INF
        · rw [if_pos hw, if_pos ⟨List.mem_append_left _ hw.1, hw.2⟩]
        · rw [if_neg hw, if_neg]
          rintro ⟨hmem, hrest⟩
          rcases List.mem_append.mp hmem with hmem2 | hmem2
          · exact hw ⟨hmem2, hrest⟩
          · rw [List.mem_singleton.mp hmem2, hxu] at hrest
            exact hrest.1 rfl
      · rw [List.filter_append]
        have hfx : List.filter (fun w => decide (w ≠ u ∧ m.entry u w ≠ NO_EDGE ∧
            s.dist w = INF)) [x] = [] := by
          simp only [List.filter_cons, List.filter_nil, decide_eq_true_eq]
          rw [if_neg (fun hh => hh.1 hxu)]
        rw [hfx, List.append_nil]
    · rw [if_neg hxu]
      by_cases hC : m.entry u x ≠ NO_EDGE ∧ s.dist x = INF
      · rw [if_pos (by rw [hdx]; exact hC)]
        refine congrArg₂ BfsState.mk ?_ ?_
        · rw [hdu]
          funext w
          by_cases hw : w = x
          · subst hw
            rw [Function.update_same, if_pos
              ⟨List.mem_append_right _ (List.mem_singleton_self w), hxu, hC⟩]
          · rw [Function.update_noteq hw]
            show (if w ∈ l ∧ w ≠ u ∧ m.entry u w ≠ NO_EDGE ∧ s.dist w = INF
              then s.dist u + 1 else s.dist w) = _
            by_cases hCw : w ∈ l ∧ w ≠ u ∧ m.entry u w ≠ NO_EDGE ∧
                s.dist w = INF
            · rw [if_pos hCw, if_pos ⟨List.mem_append_left _ hCw.1, hCw.2⟩]
            · rw [if_neg hCw, if_neg]
              rintro ⟨hmem, hrest⟩
              rcases List.mem_append.mp hmem with hmem2 | hmem2
              · exact hCw ⟨hmem2, hrest⟩
              · exact hw (List.mem_singleton.mp hmem2)
        · show (s.q ++ _) ++ [x] = s.q ++ _
          rw [List.filter_append, List.append_assoc]
          congr 1
          have hfx : List.filter (fun w => decide (w ≠ u ∧ m.entry u w ≠ NO_EDGE ∧
              s.dist w = INF)) [x] = [x] := by
            simp only [List.filter_cons, List.filter_nil, decide_eq_true_eq]
            rw [if_pos ⟨hxu, hC.1, hC.2⟩]
          rw [hfx]
      · rw [if_neg (by rw [hdx]; exact fun hh => hC hh)]
        refine congrArg₂ BfsState.mk ?_ ?_
        · funext w
          by_cases hw : w = x
          · subst hw
            rw [if_neg (fun hh => hC ⟨hh.2.2.1, hh.2.2.2⟩),
              if_neg (fun hh => hC ⟨hh.2.2.1, hh.2.2.2⟩)]
          · show (if w ∈ l ∧ w ≠ u ∧ m.entry u w ≠ NO_EDGE ∧ s.dist w = INF
              then s.dist u + 1 else s.dist w) = _
            by_cases hCw : w ∈ l ∧ w ≠ u ∧ m.entry u w ≠ NO_EDGE ∧
                s.dist w = INF
            · rw [if_pos hCw, if_pos ⟨List.mem_append_left _ hCw.1, hCw.2⟩]
            · rw [if_neg hCw, if_neg]
              rintro ⟨hmem, hrest⟩
              rcases List.mem_append.mp hmem with hmem2 | hmem2
              · exact hCw ⟨hmem2, hrest⟩
              · exact hw (List.mem_singleton.mp hmem2)
        · show s.q ++ _ = s.q ++ _
          rw [List.filter_append]
          have hfx : List.filter (fun w => decide (w ≠ u ∧ m.entry u w ≠ NO_EDGE ∧
              s.dist w = INF)) [x] = [] := by
            simp only [List.filter_cons, List.filter_nil, decide_eq_true_eq]
            rw [if_neg (fun hh => hC ⟨hh.2.1, hh.2.2⟩)]
          rw [hfx, List.append_nil]

/-- Closed form of the BFS inner scan: discovered cells get `dist u + 1`,
and the fresh nodes are appended to the queue in index order. -/
theorem bfsStep_closed (m : AdjMat) (u : ℕ) (s : BfsState) :
    bfsStep m u s
      = ⟨fun w =>
          if w < m.n ∧ w ≠ u ∧ m.entry u w ≠ NO_EDGE ∧ s.dist w = INF
          then s.dist u + 1 else s.dist w,
        s.q ++ (List.range m.n).filter
          (fun w => decide (w ≠ u ∧ m.entry u w ≠ NO_EDGE ∧ s.dist w = INF))⟩ := by
  unfold bfsStep
  rw [bfsStep_gen m u s (List.range m.n) (List.nodup_range m.n)]
  refine congrArg₂ BfsState.mk ?_ rfl
  funext w
  refine if_congr ?_ rfl rfl
  constructor
  · rintro ⟨h1, h2⟩
    exact ⟨List.mem_range.mp h1, h2⟩
  · rintro ⟨h1, h2⟩
    exact ⟨List.mem_range.mpr h1, h2⟩

theorem dijRelax_gen (m : AdjMat) (u : ℕ) (s : DijState) :
    ∀ l : List ℕ, l.Nodup →
      l.foldl
        (fun st v =>
          if v = u then st
          else if m.entry u v = NO_EDGE then st
          else if st.dist u + (m.entry u v : ℤ) < st.dist v then
            { dist := Function.update st.dist v (st.dist u + (m.entry u v : ℤ)),
              pq := st.pq ++ [(st.dist u + (m.entry u v : ℤ), v)] }
          else st) s
      = ⟨fun w =>
          if w ∈ l ∧ w ≠ u ∧ m.entry u w ≠ NO_EDGE ∧
              s.dist u + (m.entry u w : ℤ) < s.dist w
          then s.dist u + (m.entry u w : ℤ) else s.dist w,
        s.pq ++ (l.filter
          (fun w => decide (w ≠ u ∧ m.entry u w ≠ NO_EDGE ∧
            s.dist u + (m.entry u w : ℤ) < s.dist w))).map
          (fun w => (s.dist u + (m.entry u w : ℤ), w))⟩ := by
  intro l
  induction l using List.reverseRecOn with
  | nil =>
    intro _
    refine congrArg₂ DijState.mk ?_ ?_
    · funext w
      rw [if_neg]
      rintro ⟨hw, _⟩
      exact List.not_mem_nil w hw
    · simp
  | append_singleton l x ih =>
    intro hnd
    have hnd2 : l.Nodup ∧ x ∉ l := by
      rw [List.nodup_append] at hnd
      refine ⟨hnd.1, fun hx => hnd.2.2 hx (List.mem_singleton_self x)⟩
    rw [List.foldl_append, List.foldl_cons, List.foldl_nil, ih hnd2.1]
    have hdx : (⟨fun w =>
        if w ∈ l ∧ w ≠ u ∧ m.entry u w ≠ NO_EDGE ∧
            s.dist u + (m.entry u w : ℤ) < s.dist w
        then s.dist u + (m.entry u w : ℤ) else s.dist w,
      s.pq ++ (l.filter
        (fun w => decide (w ≠ u ∧ m.entry u w ≠ NO_EDGE ∧
          s.dist u + (m.entry u w : ℤ) < s.dist w))).map
        (fun w => (s.dist u + (m.entry u w : ℤ), w))⟩ : DijState).dist x
        = s.dist x := by
      show (if x ∈ l ∧ x ≠ u ∧ m.entry u x ≠ NO_EDGE ∧
          s.dist u + (m.entry u x : ℤ) < s.dist x
        then s.dist u + (m.entry u x : ℤ) else s.dist x) = s.dist x
      rw [if_neg]
      rintro ⟨hx, _⟩
      exact hnd2.2 hx
    have hdu : (⟨fun w =>
        if w ∈ l ∧ w ≠ u ∧ m.entry u w ≠ NO_EDGE ∧
            s.dist u + (m.entry u w : ℤ) < s.dist w
        then s.dist u + (m.entry u w : ℤ) else s.dist w,
      s.pq ++ (l.filter
        (fun w => decide (w ≠ u ∧ m.entry u w ≠ NO_EDGE ∧
          s.dist u + (m.entry u w : ℤ) < s.dist w))).map
        (fun w => (s.dist u + (m.entry u w : ℤ), w))⟩ : DijState).dist u
        = s.dist u := by
      show (if u ∈ l ∧ u ≠ u ∧ m.entry u u ≠ NO_EDGE ∧
          s.dist u + (m.entry u u : ℤ) < s.dist u
        then s.dist u + (m.entry u u : ℤ) else s.dist u) = s.dist u
      rw [if_neg]
      rintro ⟨_, hu, _⟩
      exact hu rfl
    by_cases hxu : x = u
    · rw [if_pos hxu]
      refine congrArg₂ DijState.mk ?_ ?_
      · funext w
        by_cases hw : w ∈ l ∧ w ≠ u ∧ m.entry u w ≠ NO_EDGE ∧
            s.dist u + (m.entry u w : ℤ) < s.dist w
        · rw [if_pos hw, if_pos ⟨List.mem_append_left _ hw.1, hw.2⟩]
        · rw [if_neg hw, if_neg]
          rintro ⟨hmem, hrest⟩
          rcases List.mem_append.mp hmem with hmem2 | hmem2
          · exact hw ⟨hmem2, hrest⟩
          · rw [List.mem_singleton.mp hmem2, hxu] at hrest
            exact hrest.1 rfl
      · rw [List.filter_append]
        have hfx : List.filter (fun w => decide (w ≠ u ∧ m.entry u w ≠ NO_EDGE ∧
            s.dist u + (m.entry u w : ℤ) < s.dist w)) [x] = [] := by
          simp only [List.filter_cons, List.filter_nil, decide_eq_true_eq]
          rw [if_neg (fun hh => hh.1 hxu)]
        rw [hfx, List.append_nil]
    · rw [if_neg hxu]
      by_cases hedge : m.entry u x = NO_EDGE
      · rw [if_pos hedge]
        refine congrArg₂ DijState.mk ?_ ?_
        · funext w
          by_cases hw : w ∈ l ∧ w ≠ u ∧ m.entry u w ≠ NO_EDGE ∧
              s.dist u + (m.entry u w : ℤ) < s.dist w
          · rw [if_pos hw, if_pos ⟨List.mem_append_left _ hw.1, hw.2⟩]
          · rw [if_neg hw, if_neg]
            rintro ⟨hmem, hrest⟩
            rcases List.mem_append.mp hmem with hmem2 | hmem2
            · exact hw ⟨hmem2, hrest⟩
            · rw [List.mem_singleton.mp hmem2] at hrest
              exact hrest.2.1 hedge
        · rw [List.filter_append]
          have hfx : List.filter (fun w => decide (w ≠ u ∧ m.entry u w ≠ NO_EDGE ∧
              s.dist u + (m.entry u w : ℤ) < s.dist w)) [x] = [] := by
            simp only [List.filter_cons, List.filter_nil, decide_eq_true_eq]
            rw [if_neg (fun hh => hh.2.1 hedge)]
          rw [hfx, List.append_nil]
      · rw [if_neg hedge]
        by_cases hlt : s.dist u + (m.entry u x : ℤ) < s.dist x
        · rw [if_pos (by rw [hdx, hdu]; exact hlt)]
          refine congrArg₂ DijState.mk ?_ ?_
          · rw [hdu]
            funext w
            by_cases hw : w = x
            · subst hw
              rw [Function.update_same, if_pos
                ⟨List.mem_append_right _ (List.mem_singleton_self w),
                  hxu, hedge, hlt⟩]
            · rw [Function.update_noteq hw]
              show (if w ∈ l ∧ w ≠ u ∧ m.entry u w ≠ NO_EDGE ∧
                  s.dist u + (m.entry u w : ℤ) < s.dist w
                then s.dist u + (m.entry u w : ℤ) else s.dist w) = _
              by_cases hCw : w ∈ l ∧ w ≠ u ∧ m.entry u w ≠ NO_EDGE ∧
                  s.dist u + (m.entry u w : ℤ) < s.dist w
              · rw [if_pos hCw, if_pos ⟨List.mem_append_left _ hCw.1, hCw.2⟩]
              · rw [if_neg hCw, if_neg]
                rintro ⟨hmem, hrest⟩
                rcases List.mem_append.mp hmem with hmem2 | hmem2
                · exact hCw ⟨hmem2, hrest⟩
                · exact hw (List.mem_singleton.mp hmem2)
          · rw [hdu]
            show (s.pq ++ _) ++ [(s.dist u + (m.entry u x : ℤ), x)] = s.pq ++ _
            rw [List.filter_append, List.map_append, List.append_assoc]
            congr 1
            have hfx : List.filter (fun w => decide (w ≠ u ∧
                m.entry u w ≠ NO_EDGE ∧
                s.dist u + (m.entry u w : ℤ) < s.dist w)) [x] = [x] := by
              simp only [List.filter_cons, List.filter_nil, decide_eq_true_eq]
              rw [if_pos ⟨hxu, hedge, hlt⟩]
            rw [hfx]
            rfl
        · rw [if_neg (by rw [hdx, hdu]; exact hlt)]
          refine congrArg₂ DijState.mk ?_ ?_
          · funext w
            by_cases hw : w = x
            · subst hw
              rw [if_neg (fun hh => hlt hh.2.2.2),
                if_neg (fun hh => hlt hh.2.2.2)]
            · show (if w ∈ l ∧ w ≠ u ∧ m.entry u w ≠ NO_EDGE ∧
                  s.dist u + (m.entry u w : ℤ) < s.dist w
                then s.dist u + (m.entry u w : ℤ) else s.dist w) = _
              by_cases hCw : w ∈ l ∧ w ≠ u ∧ m.entry u w ≠ NO_EDGE ∧
                  s.dist u + (m.entry u w : ℤ) < s.dist w
              · rw [if_pos hCw, if_pos ⟨List.mem_append_left _ hCw.1, hCw.2⟩]
              · rw [if_neg hCw, if_neg]
                rintro ⟨hmem, hrest⟩
                rcases List.mem_append.mp hmem with hmem2 | hmem2
                · exact hCw ⟨hmem2, hrest⟩
                · exact hw (List.mem_singleton.mp hmem2)
          · show s.pq ++ _ = s.pq ++ _
            rw [List.filter_append]
            have hfx : List.filter (fun w => decide (w ≠ u ∧
                m.entry u w ≠ NO_EDGE ∧
                s.dist u + (m.entry u w : ℤ) < s.dist w)) [x] = [] := by
              simp only [List.filter_cons, List.filter_nil, decide_eq_true_eq]
              rw [if_neg (fun hh => hlt hh.2.2)]
            rw [hfx, List.append_nil]

/-- Closed form of the Dijkstra inner scan: improved cells get
`dist u + weight` and the improved `(alt, v)` pairs are appended in index
order. -/
theorem dijRelax_closed (m : AdjMat) (u : ℕ) (s : DijState) :
    dijRelax m u s
      = ⟨fun w =>
          if w < m.n ∧ w ≠ u ∧ m.entry u w ≠ NO_EDGE ∧
              s.dist u + (m.entry u w : ℤ) < s.dist w
          then s.dist u + (m.entry u w : ℤ) else s.dist w,
        s.pq ++ ((List.range m.n).filter
          (fun w => decide (w ≠ u ∧ m.entry u w ≠ NO_EDGE ∧
            s.dist u + (m.entry u w : ℤ) < s.dist w))).map
          (fun w => (s.dist u + (m.entry u w : ℤ), w))⟩ := by
  unfold dijRelax
  rw [dijRelax_gen m u s (List.range m.n) (List.nodup_range m.n)]
  refine congrArg₂ DijState.mk ?_ rfl
  funext w
  refine if_congr ?_ rfl rfl
  constructor
  · rintro ⟨h1, h2⟩
    exact ⟨List.mem_range.mp h1, h2⟩
  · rintro ⟨h1, h2⟩
    exact ⟨List.mem_range.mpr h1, h2⟩

/-! ## Supporting lemmas: bounded reachability (claim C5) -/

theorem mem_reachSet (m : AdjMat) (start : ℕ) :
    ∀ k v, v ∈ reachSet m start k ↔ reachIn m start k v := by
  intro k
  induction k with
  | zero =>
    intro v
    show v ∈ ({start} : Finset ℕ) ↔ v = start
    exact Finset.mem_singleton
  | succ k ih =>
    intro v
    show v ∈ reachStep m (reachSet m start k) ↔ _
    unfold reachStep
    rw [Finset.mem_union, Finset.mem_filter, Finset.mem_range]
    constructor
    · rintro (hv | ⟨_, u, hu, hstep⟩)
      · exact Or.inl ((ih v).mp hv)
      · exact Or.inr ⟨u, (ih u).mp hu, hstep⟩
    · rintro (hv | ⟨u, hu, hstep⟩)
      · exact Or.inl ((ih v).mpr hv)
      · exact Or.inr ⟨hstep.2.1, u, (ih u).mpr hu, hstep⟩

theorem reachSet_subset_range (m : AdjMat) (start : ℕ) (hstart : start < m.n) :
    ∀ k, reachSet m start k ⊆ Finset.range m.n := by
  intro k
  induction k with
  | zero =>
    intro v hv
    rw [show reachSet m start 0 = {start} from rfl, Finset.mem_singleton] at hv
    rw [hv]
    exact Finset.mem_range.mpr hstart
  | succ k ih =>
    intro v hv
    rcases Finset.mem_union.mp hv with hv2 | hv2
    · exact ih hv2
    · exact (Finset.mem_filter.mp hv2).1

theorem reachSet_le (m : AdjMat) (start : ℕ) :
    ∀ a b, a ≤ b → reachSet m start a ⊆ reachSet m start b := by
  intro a b
  induction b with
  | zero =>
    intro hab
    rw [Nat.le_zero.mp hab]
  | succ b ih =>
    intro hab
    rcases Nat.lt_or_ge a (b + 1) with hlt | hge
    · exact (ih (by omega)).trans Finset.subset_union_left
    · rw [show a = b + 1 by omega]

theorem reachSet_stab (m : AdjMat) (start : ℕ) (k : ℕ)
    (h : reachSet m start (k + 1) = reachSet m start k) :
    ∀ j, reachSet m start (k + j) = reachSet m start k := by
  intro j
  induction j with
  | zero => rfl
  | succ j ih =>
    show reachStep m (reachSet m start (k + j)) = _
    rw [ih]
    exact h

theorem reachIn_bounded (m : AdjMat) (start : ℕ) (hstart : start < m.n) :
    ∀ k v, reachIn m start k v → ∃ k2, k2 < m.n ∧ reachIn m start k2 v := by
  have hex : ∃ k2, k2 < m.n ∧
      reachSet m start (k2 + 1) = reachSet m start k2 := by
    by_contra hc
    push_neg at hc
    have hgrow : ∀ k, k ≤ m.n → k + 1 ≤ (reachSet m start k).card := by
      intro k
      induction k with
      | zero =>
        intro _
        have hs : start ∈ reachSet m start 0 := by
          rw [show reachSet m start 0 = {start} from rfl]
          exact Finset.mem_singleton_self start
        exact Finset.card_pos.mpr ⟨start, hs⟩
      | succ k ih =>
        intro hk
        have h1 := ih (by omega)
        have hne := hc k (by omega)
        have hss : reachSet m start k ⊂ reachSet m start (k + 1) :=
          ⟨reachSet_le m start k (k + 1) (by omega), fun hsub =>
            hne (Finset.Subset.antisymm hsub
              (reachSet_le m start k (k + 1) (by omega)))⟩
        have h2 := Finset.card_lt_card hss
        omega
    have h3 := hgrow m.n (le_refl _)
    have h4 := Finset.card_le_card (reachSet_subset_range m start hstart m.n)
    rw [Finset.card_range] at h4
    omega
  rcases hex with ⟨k2, hk2, hstab⟩
  intro k v hv
  have hvmem : v ∈ reachSet m start k := (mem_reachSet m start k v).mpr hv
  have hvmem2 : v ∈ reachSet m start k2 := by
    rcases le_or_lt k k2 with hle | hlt
    · exact reachSet_le m start k k2 hle hvmem
    · have hst := reachSet_stab m start k2 hstab (k - k2)
      rw [show k2 + (k - k2) = k by omega] at hst
      rw [hst] at hvmem
      exact hvmem
  exact ⟨k2, hk2, (mem_reachSet m start k2 v).mp hvmem2⟩

/-! ## Supporting lemmas: BFS establishes the exact unit-weight contract
(claim C5) -/

theorem length_filter_range (n : ℕ) (p : ℕ → Prop) [DecidablePred p] :
    ((List.range n).filter (fun w => decide (p w))).length
      = ((Finset.range n).filter p).card := by
  induction n with
  | zero => simp
  | succ n ih =>
    rw [List.range_succ, List.filter_append, List.length_append,
      Finset.range_succ, Finset.filter_insert]
    by_cases hp : p n
    · rw [if_pos hp, Finset.card_insert_of_not_mem (fun hmem =>
        absurd (Finset.mem_range.mp (Finset.mem_filter.mp hmem).1)
          (lt_irrefl n))]
      have hone : (List.filter (fun w => decide (p w)) [n]).length = 1 := by
        simp only [List.filter_cons, List.filter_nil, decide_eq_true_eq]
        rw [if_pos hp]
        rfl
      omega
    · rw [if_neg hp]
      have hzero : (List.filter (fun w => decide (p w)) [n]).length = 0 := by
        simp only [List.filter_cons, List.filter_nil, decide_eq_true_eq]
        rw [if_neg hp]
        rfl
      omega

theorem reachIn_succ (m : AdjMat) (start : ℕ) (k v : ℕ) :
    reachIn m start (k + 1) v ↔
      reachIn m start k v ∨ ∃ u, reachIn m start k u ∧ Estep m u v :=
  Iff.rfl

theorem reachIn_zero (m : AdjMat) (start v : ℕ) :
    reachIn m start 0 v ↔ v = start :=
  Iff.rfl

theorem reachIn_mono (m : AdjMat) (start : ℕ) :
    ∀ k2 k v, k ≤ k2 → reachIn m start k v → reachIn m start k2 v := by
  intro k2
  induction k2 with
  | zero =>
    intro k v hk hv
    rw [Nat.le_zero.mp hk] at hv
    exact hv
  | succ k2 ih =>
    intro k v hk hv
    rcases Nat.eq_or_lt_of_le hk with heq | hlt
    · rw [← heq]
      exact hv
    · exact (reachIn_succ m start k2 v).mpr
        (Or.inl (ih k v (by omega) hv))

theorem bfsStep_dist (m : AdjMat) (u : ℕ) (s : BfsState) (w : ℕ) :
    (bfsStep m u s).dist w
      = if w < m.n ∧ w ≠ u ∧ m.entry u w ≠ NO_EDGE ∧ s.dist w = INF
        then s.dist u + 1 else s.dist w := by
  rw [bfsStep_closed]

theorem bfsStep_q (m : AdjMat) (u : ℕ) (s : BfsState) :
    (bfsStep m u s).q
      = s.q ++ (List.range m.n).filter
          (fun w => decide (w ≠ u ∧ m.entry u w ≠ NO_EDGE ∧ s.dist w = INF)) := by
  rw [bfsStep_closed]

theorem mem_scan_filter (m : AdjMat) (d : ℕ → ℤ) (u w : ℕ) :
    w ∈ (List.range m.n).filter
        (fun x => decide (x ≠ u ∧ m.entry u x ≠ NO_EDGE ∧ d x = INF))
      ↔ w < m.n ∧ w ≠ u ∧ m.entry u w ≠ NO_EDGE ∧ d w = INF := by
  rw [List.mem_filter, List.mem_range, decide_eq_true_eq]

theorem qinvB_init (m : AdjMat) (start : ℕ) (hstart : start < m.n) :
    QInvB m start (bfsInit start) := by
  have hd : ∀ v, (bfsInit start).dist v = if v = start then 0 else INF :=
    fun _ => rfl
  have hql : (bfsInit start).q = [start] := rfl
  have hdv : ∀ v, (bfsInit start).dist v ≠ INF → v = start := by
    intro v hv
    rw [hd] at hv
    by_contra hne
    rw [if_neg hne] at hv
    exact hv rfl
  have hds : (bfsInit start).dist start = 0 := by
    rw [hd, if_pos rfl]
  have hfilter : (Finset.range m.n).filter
      (fun y => (bfsInit start).dist y ≠ INF) = {start} := by
    ext y
    rw [Finset.mem_filter, Finset.mem_range, Finset.mem_singleton]
    constructor
    · rintro ⟨_, hy⟩
      exact hdv y hy
    · rintro rfl
      refine ⟨hstart, ?_⟩
      rw [hds]
      exact ne_of_lt INF_pos
  refine ⟨hds, ?_, ?_, ?_, ?_, ?_, ?_, ?_, ?_⟩
  · intro v hv
    have hv2 := hdv v hv
    subst hv2
    refine ⟨hstart, le_of_eq hds.symm, ?_⟩
    rw [hds]
    exact (reachIn_zero m v v).mpr rfl
  · intro v hv
    have hv2 := hdv v hv
    subst hv2
    rw [hfilter, Finset.card_singleton, hds]
    norm_num
  · intro u hu
    rw [hql, List.mem_singleton] at hu
    subst hu
    refine ⟨hstart, ?_⟩
    rw [hds]
    exact ne_of_lt INF_pos
  · rw [hql]
    exact List.pairwise_singleton _ _
  · intro a ha b hb
    rw [hql, List.mem_singleton] at ha hb
    subst ha
    subst hb
    rw [hds]
    norm_num
  · rw [hql]
    exact List.nodup_singleton _
  · intro u _ hufin hunq
    have hu2 := hdv u hufin
    subst hu2
    exact absurd (by rw [hql]; exact List.mem_singleton_self _) hunq
  · intro u _ hufin hunq
    have hu2 := hdv u hufin
    subst hu2
    exact absurd (by rw [hql]; exact List.mem_singleton_self _) hunq

theorem qinvB_step (m : AdjMat) (start u : ℕ) (rest : List ℕ) (s : BfsState)
    (hn : m.n < 2 ^ 31) (inv : QInvB m start s) (hq : s.q = u :: rest) :
    QInvB m start (bfsStep m u ⟨s.dist, rest⟩) ∧
      phiB m (bfsStep m u ⟨s.dist, rest⟩) + 1 ≤ phiB m s := by
  have hpow : (2 : ℕ) ^ 31 = 2147483648 := by norm_num
  have hIpow : (2 : ℤ) ^ 31 = 2147483648 := by norm_num
  have hINF : INF = 2147483647 := by norm_num [INF]
  have humem : u ∈ s.q := by
    rw [hq]
    exact List.mem_cons_self u rest
  have hu := inv.qmem u humem
  have husound := inv.sound u hu.2
  have hupos : 0 ≤ s.dist u := husound.2.1
  have hDb := inv.dbound u hu.2
  have hd : ∀ w, (bfsStep m u ⟨s.dist, rest⟩).dist w
      = if w < m.n ∧ w ≠ u ∧ m.entry u w ≠ NO_EDGE ∧ s.dist w = INF
        then s.dist u + 1 else s.dist w := by
    intro w
    exact bfsStep_dist m u ⟨s.dist, rest⟩ w
  have hq2 : (bfsStep m u ⟨s.dist, rest⟩).q
      = rest ++ (List.range m.n).filter
          (fun w => decide (w ≠ u ∧ m.entry u w ≠ NO_EDGE ∧ s.dist w = INF)) :=
    bfsStep_q m u ⟨s.dist, rest⟩
  have hkeep : ∀ w, s.dist w ≠ INF →
      (bfsStep m u ⟨s.dist, rest⟩).dist w = s.dist w := by
    intro w hw
    rw [hd, if_neg]
    rintro ⟨_, _, _, h4⟩
    exact hw h4
  have hdu2 : (bfsStep m u ⟨s.dist, rest⟩).dist u = s.dist u := by
    rw [hd, if_neg]
    rintro ⟨_, h2, _⟩
    exact h2 rfl
  have hflip : ∀ w, w < m.n → w ≠ u → m.entry u w ≠ NO_EDGE → s.dist w = INF →
      (bfsStep m u ⟨s.dist, rest⟩).dist w = s.dist u + 1 := by
    intro w h1 h2 h3 h4
    rw [hd, if_pos ⟨h1, h2, h3, h4⟩]
  have hDn : ∀ w, w < m.n → s.dist w = INF →
      ((Finset.range m.n).filter (fun y => s.dist y ≠ INF)).card + 1 ≤ m.n := by
    intro w hw hwINF
    have hss : (Finset.range m.n).filter (fun y => s.dist y ≠ INF)
        ⊂ Finset.range m.n := by
      refine ⟨Finset.filter_subset _ _, fun hsub => ?_⟩
      have hwmem : w ∈ (Finset.range m.n).filter (fun y => s.dist y ≠ INF) :=
        hsub (Finset.mem_range.mpr hw)
      exact (Finset.mem_filter.mp hwmem).2 hwINF
    have hcard := Finset.card_lt_card hss
    rw [Finset.card_range] at hcard
    omega
  have hlabel_lt : ∀ w, w < m.n → s.dist w = INF → s.dist u + 1 < INF := by
    intro w hw hwINF
    have h1 := hDn w hw hwINF
    rw [hINF]
    omega
  have hlabelToNat : (s.dist u + 1).toNat = (s.dist u).toNat + 1 := by
    omega
  have hmemq2 : ∀ x, x ∈ (bfsStep m u ⟨s.dist, rest⟩).q ↔
      (x ∈ rest ∨ (x < m.n ∧ x ≠ u ∧ m.entry u x ≠ NO_EDGE ∧ s.dist x = INF)) := by
    intro x
    rw [hq2, List.mem_append, mem_scan_filter]
  have hdich : ∀ w,
      ((w < m.n ∧ w ≠ u ∧ m.entry u w ≠ NO_EDGE ∧ s.dist w = INF) ∧
        (bfsStep m u ⟨s.dist, rest⟩).dist w = s.dist u + 1) ∨
      (¬ (w < m.n ∧ w ≠ u ∧ m.entry u w ≠ NO_EDGE ∧ s.dist w = INF) ∧
        (bfsStep m u ⟨s.dist, rest⟩).dist w = s.dist w) := by
    intro w
    by_cases hc : w < m.n ∧ w ≠ u ∧ m.entry u w ≠ NO_EDGE ∧ s.dist w = INF
    · exact Or.inl ⟨hc, by rw [hd, if_pos hc]⟩
    · exact Or.inr ⟨hc, by rw [hd, if_neg hc]⟩
  have hrestq : ∀ x, x ∈ rest → x ∈ s.q := by
    intro x hx
    rw [hq]
    exact List.mem_cons_of_mem u hx
  have hval : ∀ x ∈ (bfsStep m u ⟨s.dist, rest⟩).q,
      (x ∈ rest ∧ (bfsStep m u ⟨s.dist, rest⟩).dist x = s.dist x ∧
        s.dist x ≠ INF) ∨
      (bfsStep m u ⟨s.dist, rest⟩).dist x = s.dist u + 1 := by
    intro x hx
    rcases (hmemq2 x).mp hx with hxr | hxn
    · have h1 := inv.qmem x (hrestq x hxr)
      exact Or.inl ⟨hxr, hkeep x h1.2, h1.2⟩
    · exact Or.inr (hflip x hxn.1 hxn.2.1 hxn.2.2.1 hxn.2.2.2)
  have hhead : ∀ a ∈ rest, s.dist u ≤ s.dist a := by
    have h1 := inv.qsorted
    rw [hq] at h1
    exact fun a ha => (List.pairwise_cons.mp h1).1 a ha
  have hFsub : (Finset.range m.n).filter (fun y => s.dist y ≠ INF)
      ⊆ (Finset.range m.n).filter
        (fun y => (bfsStep m u ⟨s.dist, rest⟩).dist y ≠ INF) := by
    intro y hy
    rw [Finset.mem_filter] at hy ⊢
    refine ⟨hy.1, ?_⟩
    rw [hkeep y hy.2]
    exact hy.2
  constructor
  · refine ⟨?_, ?_, ?_, ?_, ?_, ?_, ?_, ?_, ?_⟩
    · have hs0 : s.dist start ≠ INF := by
        rw [inv.d0]
        exact ne_of_lt INF_pos
      rw [hkeep start hs0, inv.d0]
    · intro v hv
      rcases hdich v with ⟨hc, he⟩ | ⟨_, he⟩
      · refine ⟨hc.1, ?_, ?_⟩
        · rw [he]
          omega
        · rw [he, hlabelToNat]
          refine (reachIn_succ m start (s.dist u).toNat v).mpr
            (Or.inr ⟨u, husound.2.2, ?_⟩)
          exact ⟨hu.1, hc.1, fun hequ => hc.2.1 hequ.symm, hc.2.2.1⟩
      · rw [he] at hv ⊢
        exact inv.sound v hv
    · intro v hv
      rcases hdich v with ⟨hc, he⟩ | ⟨_, he⟩
      · have hvF2 : v ∈ (Finset.range m.n).filter
            (fun y => (bfsStep m u ⟨s.dist, rest⟩).dist y ≠ INF) :=
          Finset.mem_filter.mpr ⟨Finset.mem_range.mpr hc.1, hv⟩
        have hvF : v ∉ (Finset.range m.n).filter (fun y => s.dist y ≠ INF) :=
          fun hmem => (Finset.mem_filter.mp hmem).2 hc.2.2.2
        have hss : (Finset.range m.n).filter (fun y => s.dist y ≠ INF)
            ⊂ (Finset.range m.n).filter
              (fun y => (bfsStep m u ⟨s.dist, rest⟩).dist y ≠ INF) :=
          ⟨hFsub, fun hsub => hvF (hsub hvF2)⟩
        have hcard := Finset.card_lt_card hss
        rw [he, hlabelToNat]
        omega
      · have hv2 : s.dist v ≠ INF := by
          rw [← he]
          exact hv
        have h1 := inv.dbound v hv2
        have h2 := Finset.card_le_card hFsub
        rw [he]
        omega
    · intro x hx
      rcases (hmemq2 x).mp hx with hxr | hxn
      · have h1 := inv.qmem x (hrestq x hxr)
        refine ⟨h1.1, ?_⟩
        rw [hkeep x h1.2]
        exact h1.2
      · refine ⟨hxn.1, ?_⟩
        rw [hflip x hxn.1 hxn.2.1 hxn.2.2.1 hxn.2.2.2]
        exact ne_of_lt (hlabel_lt x hxn.1 hxn.2.2.2)
    · rw [hq2, List.pairwise_append]
      refine ⟨?_, ?_, ?_⟩
      · have hrest : rest.Pairwise (fun a b => s.dist a ≤ s.dist b) := by
          have h1 := inv.qsorted
          rw [hq] at h1
          exact (List.pairwise_cons.mp h1).2
        refine hrest.imp_of_mem ?_
        intro a b ha hb hab
        have ha2 := inv.qmem a (hrestq a ha)
        have hb2 := inv.qmem b (hrestq b hb)
        rw [hkeep a ha2.2, hkeep b hb2.2]
        exact hab
      · refine List.pairwise_of_forall_mem_list ?_
        intro a ha b hb
        rw [mem_scan_filter] at ha hb
        rw [hflip a ha.1 ha.2.1 ha.2.2.1 ha.2.2.2,
          hflip b hb.1 hb.2.1 hb.2.2.1 hb.2.2.2]
      · intro a ha b hb
        rw [mem_scan_filter] at hb
        have ha2 := inv.qmem a (hrestq a ha)
        rw [hkeep a ha2.2, hflip b hb.1 hb.2.1 hb.2.2.1 hb.2.2.2]
        exact inv.qspan u humem a (hrestq a ha)
    · intro a ha b hb
      rcases hval a ha with ⟨har, hae, _⟩ | hae <;>
        rcases hval b hb with ⟨hbr, hbe, _⟩ | hbe
      · rw [hae, hbe]
        exact inv.qspan a (hrestq a har) b (hrestq b hbr)
      · rw [hae, hbe]
        have h1 := hhead a har
        omega
      · rw [hae, hbe]
        have h1 := inv.qspan u humem b (hrestq b hbr)
        omega
      · rw [hae, hbe]
        omega
    · rw [hq2, List.nodup_append]
      refine ⟨?_, ?_, ?_⟩
      · have h1 := inv.qnodup
        rw [hq] at h1
        exact (List.nodup_cons.mp h1).2
      · exact List.Nodup.filter _ (List.nodup_range m.n)
      · intro a ha ha2
        rw [mem_scan_filter] at ha2
        have h1 := inv.qmem a (hrestq a ha)
        exact h1.2 ha2.2.2.2
    · intro x hxn hxfin hxq
      by_cases hxu : x = u
      · subst hxu
        intro w hw hwx hedge
        rw [hdu2]
        by_cases hwINF : s.dist w = INF
        · rw [hflip w hw hwx hedge hwINF]
          exact ⟨ne_of_lt (hlabel_lt w hw hwINF), le_refl _⟩
        · rw [hkeep w hwINF]
          refine ⟨hwINF, ?_⟩
          by_cases hwq : w ∈ s.q
          · exact inv.qspan x humem w hwq
          · have h1 := inv.procMin w hw hwINF hwq x humem
            omega
      · have hxflip : ¬ (x < m.n ∧ x ≠ u ∧ m.entry u x ≠ NO_EDGE ∧
            s.dist x = INF) := by
          intro hc
          exact hxq ((hmemq2 x).mpr (Or.inr hc))
        have hxe : (bfsStep m u ⟨s.dist, rest⟩).dist x = s.dist x := by
          rw [hd, if_neg hxflip]
        have hxfin2 : s.dist x ≠ INF := by
          rw [← hxe]
          exact hxfin
        have hxrest : x ∉ rest := fun hr => hxq ((hmemq2 x).mpr (Or.inl hr))
        have hxsq : x ∉ s.q := by
          rw [hq]
          intro hmem
          rcases List.mem_cons.mp hmem with h | h
          · exact hxu h
          · exact hxrest h
        have hstab := inv.stable x hxn hxfin2 hxsq
        intro w hw hwx hedge
        have h1 := hstab w hw hwx hedge
        rw [hkeep w h1.1, hxe]
        exact h1
    · intro x hxn hxfin hxq a ha
      by_cases hxu : x = u
      · subst hxu
        rw [hdu2]
        rcases hval a ha with ⟨har, hae, _⟩ | hae
        · rw [hae]
          exact hhead a har
        · rw [hae]
          omega
      · have hxflip : ¬ (x < m.n ∧ x ≠ u ∧ m.entry u x ≠ NO_EDGE ∧
            s.dist x = INF) := by
          intro hc
          exact hxq ((hmemq2 x).mpr (Or.inr hc))
        have hxe : (bfsStep m u ⟨s.dist, rest⟩).dist x = s.dist x := by
          rw [hd, if_neg hxflip]
        have hxfin2 : s.dist x ≠ INF := by
          rw [← hxe]
          exact hxfin
        have hxrest : x ∉ rest := fun hr => hxq ((hmemq2 x).mpr (Or.inl hr))
        have hxsq : x ∉ s.q := by
          rw [hq]
          intro hmem
          rcases List.mem_cons.mp hmem with h | h
          · exact hxu h
          · exact hxrest h
        rcases hval a ha with ⟨har, hae, _⟩ | hae
        · rw [hxe, hae]
          exact inv.procMin x hxn hxfin2 hxsq a (hrestq a har)
        · rw [hxe, hae]
          have h1 := inv.procMin x hxn hxfin2 hxsq u humem
          omega
  · unfold phiB
    rw [hq2, List.length_append, hq, List.length_cons]
    have hlen := length_filter_range m.n
      (fun w => w ≠ u ∧ m.entry u w ≠ NO_EDGE ∧ s.dist w = INF)
    have hsub2 : (Finset.range m.n).filter
        (fun v => (bfsStep m u ⟨s.dist, rest⟩).dist v = INF)
        ⊆ ((Finset.range m.n).filter (fun v => s.dist v = INF)) \
          ((Finset.range m.n).filter
            (fun w => w ≠ u ∧ m.entry u w ≠ NO_EDGE ∧ s.dist w = INF)) := by
      intro y hy
      rw [Finset.mem_filter] at hy
      have hyn : y < m.n := Finset.mem_range.mp hy.1
      have hynf : ¬ (y ≠ u ∧ m.entry u y ≠ NO_EDGE ∧ s.dist y = INF) := by
        intro hc
        have h1 := hflip y hyn hc.1 hc.2.1 hc.2.2
        rw [h1] at hy
        exact (ne_of_lt (hlabel_lt y hyn hc.2.2)) hy.2
      have hye : (bfsStep m u ⟨s.dist, rest⟩).dist y = s.dist y := by
        rw [hd, if_neg]
        intro hc
        exact hynf ⟨hc.2.1, hc.2.2.1, hc.2.2.2⟩
      rw [Finset.mem_sdiff, Finset.mem_filter, Finset.mem_filter]
      refine ⟨⟨hy.1, ?_⟩, fun hc => hynf hc.2⟩
      rw [← hye]
      exact hy.2
    have hsub3 : (Finset.range m.n).filter
        (fun w => w ≠ u ∧ m.entry u w ≠ NO_EDGE ∧ s.dist w = INF)
        ⊆ (Finset.range m.n).filter (fun v => s.dist v = INF) := by
      intro y hy
      rw [Finset.mem_filter] at hy ⊢
      exact ⟨hy.1, hy.2.2.2⟩
    have h1 := Finset.card_le_card hsub2
    rw [Finset.card_sdiff hsub3] at h1
    have h2 := Finset.card_le_card hsub3
    omega

theorem bfsRun_drain (m : AdjMat) (start : ℕ) (hn : m.n < 2 ^ 31) :
    ∀ (f : ℕ) (s : BfsState), QInvB m start s → phiB m s ≤ f →
      (bfsRun m f s).q = [] ∧ QInvB m start (bfsRun m f s) := by
  intro f
  induction f with
  | zero =>
    intro s inv hphi
    have hq : s.q = [] := by
      unfold phiB at hphi
      have h1 : s.q.length = 0 := by omega
      exact List.length_eq_zero.mp h1
    exact ⟨hq, inv⟩
  | succ f ih =>
    intro s inv hphi
    show (bfsRun m (f + 1) s).q = [] ∧ QInvB m start (bfsRun m (f + 1) s)
    rw [bfsRun]
    cases hq : s.q with
    | nil => exact ⟨hq, inv⟩
    | cons u rest =>
      have hstep := qinvB_step m start u rest s hn inv hq
      have hphi2 : phiB m (bfsStep m u ⟨s.dist, rest⟩) ≤ f := by omega
      exact ih (bfsStep m u ⟨s.dist, rest⟩) hstep.1 hphi2

theorem bfs_final_Q (m : AdjMat) (start : ℕ) (s : BfsState)
    (hn : m.n < 2 ^ 31) (inv : QInvB m start s) (hq : s.q = []) :
    QProp m start s.dist := by
  have hall : ∀ k w, w < m.n → reachIn m start k w →
      s.dist w ≠ INF ∧ s.dist w ≤ (k : ℤ) := by
    intro k
    induction k with
    | zero =>
      intro w hw hr
      have hw2 : w = start := (reachIn_zero m start w).mp hr
      subst hw2
      rw [inv.d0]
      exact ⟨ne_of_lt INF_pos, by norm_num⟩
    | succ k ih =>
      intro w hw hr
      rcases (reachIn_succ m start k w).mp hr with hr2 | ⟨x, hx, hstep⟩
      · have h1 := ih w hw hr2
        refine ⟨h1.1, ?_⟩
        have h2 := h1.2
        push_cast
        omega
      · have hx2 := ih x hstep.1 hx
        have hst := inv.stable x hstep.1 hx2.1
          (by rw [hq]; exact List.not_mem_nil x)
        have h1 := hst w hstep.2.1 (Ne.symm hstep.2.2.1) hstep.2.2.2
        refine ⟨h1.1, ?_⟩
        have h2 := h1.2
        have h3 := hx2.2
        push_cast
        omega
  intro v hv
  by_cases hfin : s.dist v = INF
  · refine ⟨?_, le_of_eq hfin, fun hc => absurd hfin hc, ?_⟩
    · rw [hfin]
      exact le_of_lt INF_pos
    · intro k hr
      exact absurd hfin (hall k v hv hr).1
  · have hsound := inv.sound v hfin
    refine ⟨hsound.2.1, ?_, fun _ => hsound.2.2, ?_⟩
    · have hdb := inv.dbound v hfin
      have hcard := Finset.card_le_card
        (Finset.filter_subset (fun y => s.dist y ≠ INF) (Finset.range m.n))
      rw [Finset.card_range] at hcard
      have hINF : INF = 2147483647 := by norm_num [INF]
      have hpow : (2 : ℕ) ^ 31 = 2147483648 := by norm_num
      rw [hINF]
      omega
    · intro k hr
      exact (hall k v hv hr).2

theorem phiB_init_le (m : AdjMat) (start : ℕ) :
    phiB m (bfsInit start) ≤ m.n + 1 := by
  unfold phiB
  have h1 := Finset.card_le_card
    (Finset.filter_subset (fun v => (bfsInit start).dist v = INF)
      (Finset.range m.n))
  rw [Finset.card_range] at h1
  have h2 : (bfsInit start).q.length = 1 := rfl
  omega

theorem bfs_Q (m : AdjMat) (start : ℕ) (hstart : start < m.n)
    (hn : m.n < 2 ^ 31) :
    QProp m start ((bfsRun m (bfsFuel m.n) (bfsInit start)).dist) := by
  have h0 := qinvB_init m start hstart
  have hphi : phiB m (bfsInit start) ≤ bfsFuel m.n := by
    have h1 := phiB_init_le m start
    unfold bfsFuel
    omega
  have h1 := bfsRun_drain m start hn (bfsFuel m.n) (bfsInit start) h0 hphi
  exact bfs_final_Q m start _ hn h1.2 h1.1

/-! ## Supporting lemmas: Dijkstra establishes the same unit-weight contract
(claim C5) -/

theorem dijRelax_dist (m : AdjMat) (u : ℕ) (s : DijState) (w : ℕ) :
    (dijRelax m u s).dist w
      = if w < m.n ∧ w ≠ u ∧ m.entry u w ≠ NO_EDGE ∧
            s.dist u + (m.entry u w : ℤ) < s.dist w
        then s.dist u + (m.entry u w : ℤ) else s.dist w := by
  rw [dijRelax_closed]

theorem dijRelax_pq (m : AdjMat) (u : ℕ) (s : DijState) :
    (dijRelax m u s).pq
      = s.pq ++ ((List.range m.n).filter
          (fun w => decide (w ≠ u ∧ m.entry u w ≠ NO_EDGE ∧
            s.dist u + (m.entry u w : ℤ) < s.dist w))).map
          (fun w => (s.dist u + (m.entry u w : ℤ), w)) := by
  rw [dijRelax_closed]

theorem mem_relax_filter (m : AdjMat) (d : ℕ → ℤ) (u w : ℕ) :
    w ∈ (List.range m.n).filter
        (fun x => decide (x ≠ u ∧ m.entry u x ≠ NO_EDGE ∧
          d u + (m.entry u x : ℤ) < d x))
      ↔ w < m.n ∧ w ≠ u ∧ m.entry u w ≠ NO_EDGE ∧
          d u + (m.entry u w : ℤ) < d w := by
  rw [List.mem_filter, List.mem_range, decide_eq_true_eq]

theorem qinvD_init (m : AdjMat) (start : ℕ) (hstart : start < m.n) :
    QInvD m start (dijInit start) := by
  have hd : ∀ v, (dijInit start).dist v = if v = start then 0 else INF :=
    fun _ => rfl
  have hpq : (dijInit start).pq = [(0, start)] := rfl
  have hdv : ∀ v, (dijInit start).dist v ≠ INF → v = start := by
    intro v hv
    rw [hd] at hv
    by_contra hne
    rw [if_neg hne] at hv
    exact hv rfl
  have hds : (dijInit start).dist start = 0 := by
    rw [hd, if_pos rfl]
  have hgood : GoodEntry (dijInit start) start := by
    refine ⟨(0, start), ?_, rfl, ?_⟩
    · rw [hpq]
      exact List.mem_singleton_self _
    · show (0 : ℤ) ≤ (dijInit start).dist start
      rw [hds]
  refine ⟨hds, ?_, ?_, ?_, ?_, ?_⟩
  · intro v
    rw [hd]
    split_ifs
    · exact ⟨le_refl 0, le_of_lt INF_pos⟩
    · exact ⟨le_of_lt INF_pos, le_refl INF⟩
  · intro v hv
    have hv2 := hdv v hv
    subst hv2
    refine ⟨hstart, ?_⟩
    rw [hds]
    exact (reachIn_zero m v v).mpr rfl
  · intro p hp
    rw [hpq, List.mem_singleton] at hp
    subst hp
    refine ⟨hstart, le_refl 0, INF_pos, ?_⟩
    show (dijInit start).dist start ≤ 0
    rw [hds]
  · intro u hu hufin
    have hu2 := hdv u hufin
    subst hu2
    exact Or.inl hgood
  · intro p hp y hy hyfin hng
    have hy2 := hdv y hyfin
    subst hy2
    exact absurd hgood hng

theorem qinvD_stale (m : AdjMat) (start : ℕ) (p : ℤ × ℕ)
    (rest : List (ℤ × ℕ)) (s : DijState) (inv : QInvD m start s)
    (hpop : popMin s.pq = some (p, rest)) (hst : s.dist p.2 < p.1) :
    QInvD m start ⟨s.dist, rest⟩ ∧ phiD m ⟨s.dist, rest⟩ + 1 ≤ phiD m s := by
  have hrest := popMin_rest hpop
  have hpmem := popMin_mem hpop
  have hsub : ∀ q ∈ rest, q ∈ s.pq := by
    intro q hq
    rw [hrest] at hq
    exact List.mem_of_mem_erase hq
  have hge : ∀ y, GoodEntry s y → GoodEntry ⟨s.dist, rest⟩ y := by
    rintro y ⟨q, hqmem, hq2, hq1⟩
    have hqp : q ≠ p := by
      intro h
      rw [h] at hq2 hq1
      rw [← hq2] at hq1
      omega
    refine ⟨q, ?_, hq2, hq1⟩
    show q ∈ rest
    rw [hrest]
    exact (List.mem_erase_of_ne hqp).mpr hqmem
  refine ⟨⟨inv.d0, inv.dpos, inv.sound, ?_, ?_, ?_⟩, ?_⟩
  · intro q hq
    exact inv.pqok q (hsub q hq)
  · intro u hu hufin
    rcases inv.main u hu hufin with hgood | hstab
    · exact Or.inl (hge u hgood)
    · exact Or.inr hstab
  · intro q hq y hy hyfin hng
    refine inv.keyC q (hsub q hq) y hy hyfin ?_
    intro hgood
    exact hng (hge y hgood)
  · show (∑ v ∈ Finset.range m.n, (s.dist v).toNat) + rest.length + 1
      ≤ (∑ v ∈ Finset.range m.n, (s.dist v).toNat) + s.pq.length
    have h1 := List.length_erase_of_mem hpmem
    have h2 : 0 < s.pq.length :=
      List.length_pos.mpr (List.ne_nil_of_mem hpmem)
    rw [hrest]
    omega

theorem qinvD_relax (m : AdjMat) (start : ℕ) (p : ℤ × ℕ)
    (rest : List (ℤ × ℕ)) (s : DijState)
    (HW : ∀ i, i < m.n → ∀ j, j < m.n →
      m.entry i j ≠ NO_EDGE → m.entry i j = 1)
    (inv : QInvD m start s) (hpop : popMin s.pq = some (p, rest))
    (hst : ¬ s.dist p.2 < p.1) :
    QInvD m start (dijRelax m p.2 ⟨s.dist, rest⟩) ∧
      phiD m (dijRelax m p.2 ⟨s.dist, rest⟩) + 1 ≤ phiD m s := by
  have hrest := popMin_rest hpop
  have hpmem := popMin_mem hpop
  have hsub0 : ∀ q ∈ rest, q ∈ s.pq := by
    intro q hq
    rw [hrest] at hq
    exact List.mem_of_mem_erase hq
  have hpqok := inv.pqok p hpmem
  have hy1 : p.2 < m.n := hpqok.1
  have heq : s.dist p.2 = p.1 := le_antisymm hpqok.2.2.2 (not_lt.mp hst)
  have hyfin : s.dist p.2 ≠ INF := by
    rw [heq]
    exact ne_of_lt hpqok.2.2.1
  have hw1 : ∀ w, w < m.n → m.entry p.2 w ≠ NO_EDGE →
      (m.entry p.2 w : ℤ) = 1 := by
    intro w hwn he
    rw [HW p.2 hy1 w hwn he]
    exact Nat.cast_one
  have hd : ∀ w, (dijRelax m p.2 ⟨s.dist, rest⟩).dist w
      = if w < m.n ∧ w ≠ p.2 ∧ m.entry p.2 w ≠ NO_EDGE ∧
            s.dist p.2 + (m.entry p.2 w : ℤ) < s.dist w
        then s.dist p.2 + (m.entry p.2 w : ℤ) else s.dist w :=
    fun w => dijRelax_dist m p.2 ⟨s.dist, rest⟩ w
  have hpq2 : (dijRelax m p.2 ⟨s.dist, rest⟩).pq
      = rest ++ ((List.range m.n).filter
          (fun w => decide (w ≠ p.2 ∧ m.entry p.2 w ≠ NO_EDGE ∧
            s.dist p.2 + (m.entry p.2 w : ℤ) < s.dist w))).map
          (fun w => (s.dist p.2 + (m.entry p.2 w : ℤ), w)) :=
    dijRelax_pq m p.2 ⟨s.dist, rest⟩
  have hflip : ∀ w, (w < m.n ∧ w ≠ p.2 ∧ m.entry p.2 w ≠ NO_EDGE ∧
        s.dist p.2 + (m.entry p.2 w : ℤ) < s.dist w) →
      (dijRelax m p.2 ⟨s.dist, rest⟩).dist w
        = s.dist p.2 + (m.entry p.2 w : ℤ) := by
    intro w hc
    rw [hd, if_pos hc]
  have hkeep : ∀ w, ¬ (w < m.n ∧ w ≠ p.2 ∧ m.entry p.2 w ≠ NO_EDGE ∧
        s.dist p.2 + (m.entry p.2 w : ℤ) < s.dist w) →
      (dijRelax m p.2 ⟨s.dist, rest⟩).dist w = s.dist w := by
    intro w hc
    rw [hd, if_neg hc]
  have hdle : ∀ w, (dijRelax m p.2 ⟨s.dist, rest⟩).dist w ≤ s.dist w := by
    intro w
    rw [hd]
    split_ifs with hc
    · exact le_of_lt hc.2.2.2
    · exact le_refl _
  have hdy : (dijRelax m p.2 ⟨s.dist, rest⟩).dist p.2 = s.dist p.2 := by
    refine hkeep p.2 ?_
    rintro ⟨_, h2, _⟩
    exact h2 rfl
  have hnewgood : ∀ w, (w < m.n ∧ w ≠ p.2 ∧ m.entry p.2 w ≠ NO_EDGE ∧
        s.dist p.2 + (m.entry p.2 w : ℤ) < s.dist w) →
      GoodEntry (dijRelax m p.2 ⟨s.dist, rest⟩) w := by
    intro w hc
    refine ⟨(s.dist p.2 + (m.entry p.2 w : ℤ), w), ?_, rfl, ?_⟩
    · rw [hpq2]
      refine List.mem_append_right _ (List.mem_map.mpr ⟨w, ?_, rfl⟩)
      exact (mem_relax_filter m s.dist p.2 w).mpr hc
    · show s.dist p.2 + (m.entry p.2 w : ℤ)
        ≤ (dijRelax m p.2 ⟨s.dist, rest⟩).dist w
      rw [hflip w hc]
  constructor
  · refine ⟨?_, ?_, ?_, ?_, ?_, ?_⟩
    · have hK0 : ¬ (start < m.n ∧ start ≠ p.2 ∧
          m.entry p.2 start ≠ NO_EDGE ∧
          s.dist p.2 + (m.entry p.2 start : ℤ) < s.dist start) := by
        rintro ⟨_, _, _, hlt⟩
        rw [inv.d0] at hlt
        have h1 := (inv.dpos p.2).1
        have h2 : (0 : ℤ) ≤ (m.entry p.2 start : ℤ) := Int.ofNat_nonneg _
        omega
      rw [hkeep start hK0]
      exact inv.d0
    · intro v
      rw [hd]
      split_ifs with hc
      · have h1 := (inv.dpos p.2).1
        have h2 : (0 : ℤ) ≤ (m.entry p.2 v : ℤ) := Int.ofNat_nonneg _
        have h3 := hc.2.2.2
        have h4 := (inv.dpos v).2
        exact ⟨by omega, by omega⟩
      · exact inv.dpos v
    · intro v hv
      by_cases hc : v < m.n ∧ v ≠ p.2 ∧ m.entry p.2 v ≠ NO_EDGE ∧
          s.dist p.2 + (m.entry p.2 v : ℤ) < s.dist v
      · refine ⟨hc.1, ?_⟩
        rw [hflip v hc, hw1 v hc.1 hc.2.2.1]
        have htn : (s.dist p.2 + 1).toNat = (s.dist p.2).toNat + 1 := by
          have h1 := (inv.dpos p.2).1
          omega
        rw [htn]
        refine (reachIn_succ m start (s.dist p.2).toNat v).mpr
          (Or.inr ⟨p.2, (inv.sound p.2 hyfin).2, ?_⟩)
        exact ⟨hy1, hc.1, fun h => hc.2.1 h.symm, hc.2.2.1⟩
      · rw [hkeep v hc] at hv ⊢
        exact inv.sound v hv
    · intro q hq
      rw [hpq2, List.mem_append] at hq
      rcases hq with hq | hq
      · have h1 := inv.pqok q (hsub0 q hq)
        exact ⟨h1.1, h1.2.1, h1.2.2.1, le_trans (hdle q.2) h1.2.2.2⟩
      · rcases List.mem_map.mp hq with ⟨w, hwmem, hqe⟩
        rw [mem_relax_filter] at hwmem
        rw [← hqe]
        have h1 := (inv.dpos p.2).1
        have h2 : (0 : ℤ) ≤ (m.entry p.2 w : ℤ) := Int.ofNat_nonneg _
        have h3 := hwmem.2.2.2
        have h4 := (inv.dpos w).2
        refine ⟨hwmem.1, ?_, ?_, ?_⟩
        · show (0 : ℤ) ≤ s.dist p.2 + (m.entry p.2 w : ℤ)
          omega
        · show s.dist p.2 + (m.entry p.2 w : ℤ) < INF
          omega
        · show (dijRelax m p.2 ⟨s.dist, rest⟩).dist w
            ≤ s.dist p.2 + (m.entry p.2 w : ℤ)
          rw [hflip w hwmem]
    · intro v hv hvfin
      by_cases hc : v < m.n ∧ v ≠ p.2 ∧ m.entry p.2 v ≠ NO_EDGE ∧
          s.dist p.2 + (m.entry p.2 v : ℤ) < s.dist v
      · exact Or.inl (hnewgood v hc)
      · have hve := hkeep v hc
        have hvfin2 : s.dist v ≠ INF := by
          rw [← hve]
          exact hvfin
        by_cases hvy : v = p.2
        · subst hvy
          refine Or.inr ?_
          intro w hwn hwv hedge
          rw [hdy]
          have he1 : (m.entry p.2 w : ℤ) = 1 := hw1 w hwn hedge
          by_cases hcw : w < m.n ∧ w ≠ p.2 ∧ m.entry p.2 w ≠ NO_EDGE ∧
              s.dist p.2 + (m.entry p.2 w : ℤ) < s.dist w
          · rw [hflip w hcw, he1]
          · rw [hkeep w hcw]
            have h1 : ¬ (s.dist p.2 + (m.entry p.2 w : ℤ) < s.dist w) :=
              fun hlt => hcw ⟨hwn, hwv, hedge, hlt⟩
            rw [he1] at h1
            omega
        · rcases inv.main v hv hvfin2 with hgood | hstab
          · rcases hgood with ⟨q, hqmem, hq2, hq1⟩
            have hqp : q ≠ p := by
              intro h
              rw [h] at hq2
              exact hvy hq2.symm
            refine Or.inl ⟨q, ?_, hq2, ?_⟩
            · rw [hpq2]
              refine List.mem_append_left _ ?_
              rw [hrest]
              exact (List.mem_erase_of_ne hqp).mpr hqmem
            · rw [hve]
              exact hq1
          · refine Or.inr ?_
            intro w hwn hwv2 hedge
            have h1 := hstab w hwn hwv2 hedge
            have h2 := hdle w
            rw [hve]
            omega
    · intro q hq y hy hyfin2 hng
      have hyflip : ¬ (y < m.n ∧ y ≠ p.2 ∧ m.entry p.2 y ≠ NO_EDGE ∧
          s.dist p.2 + (m.entry p.2 y : ℤ) < s.dist y) :=
        fun hc => hng (hnewgood y hc)
      have hye := hkeep y hyflip
      have hyfin3 : s.dist y ≠ INF := by
        rw [← hye]
        exact hyfin2
      rw [hpq2, List.mem_append] at hq
      by_cases hyp : y = p.2
      · subst hyp
        rw [hye]
        rcases hq with hq | hq
        · have h1 := popMin_min hpop q (hsub0 q hq)
          omega
        · rcases List.mem_map.mp hq with ⟨w, _, hqe⟩
          rw [← hqe]
          show s.dist p.2 ≤ s.dist p.2 + (m.entry p.2 w : ℤ)
          have h2 : (0 : ℤ) ≤ (m.entry p.2 w : ℤ) := Int.ofNat_nonneg _
          omega
      · have hng2 : ¬ GoodEntry s y := by
          rintro ⟨q0, hq0mem, hq02, hq01⟩
          have hq0p : q0 ≠ p := by
            intro h
            rw [h] at hq02
            exact hyp hq02.symm
          refine hng ⟨q0, ?_, hq02, ?_⟩
          · rw [hpq2]
            refine List.mem_append_left _ ?_
            rw [hrest]
            exact (List.mem_erase_of_ne hq0p).mpr hq0mem
          · rw [hye]
            exact hq01
        rw [hye]
        rcases hq with hq | hq
        · exact inv.keyC q (hsub0 q hq) y hy hyfin3 hng2
        · rcases List.mem_map.mp hq with ⟨w, _, hqe⟩
          rw [← hqe]
          show s.dist y ≤ s.dist p.2 + (m.entry p.2 w : ℤ)
          have hkey := inv.keyC p hpmem y hy hyfin3 hng2
          have h2 : (0 : ℤ) ≤ (m.entry p.2 w : ℤ) := Int.ofNat_nonneg _
          omega
  · show (∑ v ∈ Finset.range m.n,
        ((dijRelax m p.2 ⟨s.dist, rest⟩).dist v).toNat)
      + (dijRelax m p.2 ⟨s.dist, rest⟩).pq.length + 1
      ≤ (∑ v ∈ Finset.range m.n, (s.dist v).toNat) + s.pq.length
    have hsum : (∑ v ∈ Finset.range m.n,
        (((dijRelax m p.2 ⟨s.dist, rest⟩).dist v).toNat
          + (if (v ≠ p.2 ∧ m.entry p.2 v ≠ NO_EDGE ∧
              s.dist p.2 + (m.entry p.2 v : ℤ) < s.dist v) then 1 else 0)))
        ≤ ∑ v ∈ Finset.range m.n, (s.dist v).toNat := by
      refine Finset.sum_le_sum ?_
      intro v hv
      have hvn := Finset.mem_range.mp hv
      by_cases hc : v ≠ p.2 ∧ m.entry p.2 v ≠ NO_EDGE ∧
          s.dist p.2 + (m.entry p.2 v : ℤ) < s.dist v
      · rw [if_pos hc, hflip v ⟨hvn, hc⟩]
        have h1 := (inv.dpos p.2).1
        have h2 : (0 : ℤ) ≤ (m.entry p.2 v : ℤ) := Int.ofNat_nonneg _
        have h3 := hc.2.2
        omega
      · rw [if_neg hc, hkeep v (fun hK => hc ⟨hK.2.1, hK.2.2.1, hK.2.2.2⟩)]
        omega
    rw [Finset.sum_add_distrib] at hsum
    have hcardT := Finset.card_filter
      (fun v => v ≠ p.2 ∧ m.entry p.2 v ≠ NO_EDGE ∧
        s.dist p.2 + (m.entry p.2 v : ℤ) < s.dist v) (Finset.range m.n)
    have hlen2 := length_filter_range m.n
      (fun w => w ≠ p.2 ∧ m.entry p.2 w ≠ NO_EDGE ∧
        s.dist p.2 + (m.entry p.2 w : ℤ) < s.dist w)
    have hrlen : rest.length + 1 = s.pq.length := by
      have h1 := List.length_erase_of_mem hpmem
      have h2 : 0 < s.pq.length :=
        List.length_pos.mpr (List.ne_nil_of_mem hpmem)
      rw [hrest]
      omega
    rw [hpq2, List.length_append, List.length_map]
    omega

theorem dijRun_drain (m : AdjMat) (start : ℕ)
    (HW : ∀ i, i < m.n → ∀ j, j < m.n →
      m.entry i j ≠ NO_EDGE → m.entry i j = 1) :
    ∀ (f : ℕ) (s : DijState), QInvD m start s → phiD m s ≤ f →
      (dijRun m f s).pq = [] ∧ QInvD m start (dijRun m f s) := by
  intro f
  induction f with
  | zero =>
    intro s inv hphi
    have hq : s.pq = [] := by
      unfold phiD at hphi
      have h1 : s.pq.length = 0 := by omega
      exact List.length_eq_zero.mp h1
    exact ⟨hq, inv⟩
  | succ f ih =>
    intro s inv hphi
    show (dijRun m (f + 1) s).pq = [] ∧ QInvD m start (dijRun m (f + 1) s)
    rw [dijRun]
    cases hpop : popMin s.pq with
    | none => exact ⟨popMin_none hpop, inv⟩
    | some pr =>
      rcases pr with ⟨p, rest⟩
      dsimp only
      split_ifs with hstale
      · have h1 := qinvD_stale m start p rest s inv hpop hstale
        have h2 := h1.2
        exact ih _ h1.1 (by omega)
      · have h1 := qinvD_relax m start p rest s HW inv hpop hstale
        have h2 := h1.2
        exact ih _ h1.1 (by omega)

theorem dij_final_Q (m : AdjMat) (start : ℕ) (s : DijState)
    (inv : QInvD m start s) (hpq : s.pq = []) :
    QProp m start s.dist := by
  have hstab : ∀ u, u < m.n → s.dist u ≠ INF → StableW m s.dist u := by
    intro u hu hufin
    rcases inv.main u hu hufin with hgood | h
    · rcases hgood with ⟨q, hq, _⟩
      rw [hpq] at hq
      exact absurd hq (List.not_mem_nil q)
    · exact h
  have hall : ∀ k : ℕ, (k : ℤ) + 1 ≤ INF → ∀ w, w < m.n →
      reachIn m start k w → s.dist w ≤ (k : ℤ) := by
    intro k
    induction k with
    | zero =>
      intro _ w hw hr
      have hw2 := (reachIn_zero m start w).mp hr
      subst hw2
      rw [inv.d0]
      norm_num
    | succ k ih =>
      intro hk w hw hr
      have hk2 : (k : ℤ) + 1 ≤ INF := by
        push_cast at hk
        omega
      rcases (reachIn_succ m start k w).mp hr with hr2 | ⟨x, hx, hstep⟩
      · have h1 := ih hk2 w hw hr2
        push_cast
        omega
      · have hxle := ih hk2 x hstep.1 hx
        have hxfin : s.dist x ≠ INF := by
          intro hc
          rw [hc] at hxle
          push_cast at hk
          omega
        have h1 := hstab x hstep.1 hxfin w hstep.2.1
          (Ne.symm hstep.2.2.1) hstep.2.2.2
        push_cast
        omega
  intro v hv
  refine ⟨(inv.dpos v).1, (inv.dpos v).2,
    fun hfin => (inv.sound v hfin).2, ?_⟩
  intro k hr
  rcases le_or_lt ((k : ℤ) + 1) INF with hk | hk
  · exact hall k hk v hv hr
  · have h1 := (inv.dpos v).2
    omega

theorem phiD_init_le (m : AdjMat) (start : ℕ) :
    phiD m (dijInit start) ≤ m.n * 2 ^ 31 + 1 := by
  have hsum : (∑ v ∈ Finset.range m.n, ((dijInit start).dist v).toNat)
      ≤ ∑ v ∈ Finset.range m.n, 2 ^ 31 := by
    refine Finset.sum_le_sum ?_
    intro v _
    show (if v = start then (0 : ℤ) else INF).toNat ≤ 2 ^ 31
    split_ifs
    · norm_num
    · have hINF : INF = 2147483647 := by norm_num [INF]
      rw [hINF]
      norm_num
  have h2 : (∑ _v ∈ Finset.range m.n, (2 : ℕ) ^ 31) = m.n * 2 ^ 31 := by
    rw [Finset.sum_const, Finset.card_range, smul_eq_mul]
  have h3 : (dijInit start).pq.length = 1 := rfl
  show (∑ v ∈ Finset.range m.n, ((dijInit start).dist v).toNat)
    + (dijInit start).pq.length ≤ m.n * 2 ^ 31 + 1
  omega

theorem dij_Q (m : AdjMat) (start : ℕ) (hstart : start < m.n)
    (HW : ∀ i, i < m.n → ∀ j, j < m.n →
      m.entry i j ≠ NO_EDGE → m.entry i j = 1) :
    QProp m start ((dijRun m (dijFuel m.n) (dijInit start)).dist) := by
  have h0 := qinvD_init m start hstart
  have hphi : phiD m (dijInit start) ≤ dijFuel m.n := by
    have h1 := phiD_init_le m start
    unfold dijFuel
    omega
  have h1 := dijRun_drain m start HW (dijFuel m.n) (dijInit start) h0 hphi
  exact dij_final_Q m start _ h1.2 h1.1

theorem QProp_unique (m : AdjMat) (start : ℕ) (d1 d2 : ℕ → ℤ)
    (h1 : QProp m start d1) (h2 : QProp m start d2) :
    ∀ v, v < m.n → d1 v = d2 v := by
  have key : ∀ e1 e2 : ℕ → ℤ, QProp m start e1 → QProp m start e2 →
      ∀ v, v < m.n → e2 v ≠ INF → e1 v ≤ e2 v := by
    intro e1 e2 q1 q2 v hv hfin
    have hr := (q2 v hv).2.2.1 hfin
    have hle := (q1 v hv).2.2.2 (e2 v).toNat hr
    rwa [Int.toNat_of_nonneg (q2 v hv).1] at hle
  intro v hv
  by_cases hf1 : d1 v = INF <;> by_cases hf2 : d2 v = INF
  · rw [hf1, hf2]
  · have hle := key d1 d2 h1 h2 v hv hf2
    have h3 : d2 v < INF := lt_of_le_of_ne (h2 v hv).2.1 hf2
    rw [hf1] at hle
    omega
  · have hle := key d2 d1 h2 h1 v hv hf1
    have h3 : d1 v < INF := lt_of_le_of_ne (h1 v hv).2.1 hf1
    rw [hf2] at hle
    omega
  · exact le_antisymm (key d1 d2 h1 h2 v hv hf2) (key d2 d1 h2 h1 v hv hf1)

/-! ## Supporting lemmas: betweenness centrality -/

/-- The accumulation phase is additive in the centrality array: running it on
`c` produces `c` plus the increment it produces on the zero array (the
`delta` evolution never reads the centrality array). -/
theorem brandesAccum_c_offset (sigma : ℕ → ℕ) (preds : ℕ → List ℕ) (s : ℕ) :
    ∀ (stk : List ℕ) (delta c : ℕ → ℚ),
      (brandesAccum sigma preds s stk delta c).2
        = fun i => c i +
            (brandesAccum sigma preds s stk delta (fun _ => 0)).2 i := by
  intro stk
  induction stk with
  | nil =>
    intro delta c
    funext i
    simp [brandesAccum]
  | cons w rest ih =>
    intro delta c
    have hstep : ∀ c0 : ℕ → ℚ,
        brandesAccum sigma preds s (w :: rest) delta c0
          = brandesAccum sigma preds s rest
              ((preds w).foldl
                (fun d v => Function.update d v
                  (d v + ((sigma v : ℚ) / (sigma w : ℚ)) * (1 + d w))) delta)
              (if w ≠ s then
                Function.update c0 w (c0 w +
                  ((preds w).foldl
                    (fun d v => Function.update d v
                      (d v + ((sigma v : ℚ) / (sigma w : ℚ)) * (1 + d w)))
                    delta) w)
               else c0) := fun c0 => rfl
    rw [hstep c, hstep (fun _ => 0)]
    funext i
    conv_lhs => rw [ih]
    conv_rhs => rw [ih]
    beta_reduce
    split_ifs with hws
    · rcases eq_or_ne i w with rfl | hiw
      · simp only [Function.update_same]
        ring

      · simp only [Function.update_noteq hiw]
        ring
    · ring

/-- The accumulation phase never touches the source's own centrality cell. -/
theorem brandesAccum_c_source (sigma : ℕ → ℕ) (preds : ℕ → List ℕ) (s : ℕ) :
    ∀ (stk : List ℕ) (delta c : ℕ → ℚ),
      (brandesAccum sigma preds s stk delta c).2 s = c s := by
  intro stk
  induction stk with
  | nil =>
    intro delta c
    rfl
  | cons w rest ih =>
    intro delta c
    show (brandesAccum sigma preds s rest _ _).2 s = c s
    rw [ih]
    split_ifs with hws
    · rw [Function.update_noteq (Ne.symm hws)]
    · rfl

theorem sum_range_eq_list_sum (n : ℕ) (g : ℕ → ℚ) :
    ∑ s ∈ Finset.range n, g s = ((List.range n).map g).sum := by
  induction n with
  | zero => simp
  | succ n ih =>
    rw [Finset.sum_range_succ, List.range_succ, List.map_append,
      List.sum_append, ih]
    simp

/-- Folding the per-source accumulation over a list of sources adds up the
per-source increments. -/
theorem brandes_fold (m : AdjMat) (weighed : Bool) :
    ∀ (l : List ℕ) (c : ℕ → ℚ),
      l.foldl (fun c s =>
        let t := brandesSource m weighed s
        (brandesAccum t.1 t.2.1 s t.2.2 (fun _ => 0) c).2) c
      = fun i => c i + (l.map (fun s => brandesSourceInc m weighed s i)).sum := by
  intro l
  induction l with
  | nil =>
    intro c
    funext i
    simp
  | cons s l ih =>
    intro c
    rw [List.foldl_cons, ih]
    funext i
    show (brandesAccum (brandesSource m weighed s).1
        (brandesSource m weighed s).2.1 s (brandesSource m weighed s).2.2
        (fun _ => 0) c).2 i + _ = _
    rw [brandesAccum_c_offset]
    show c i + brandesSourceInc m weighed s i + _ = _
    rw [List.map_cons, List.sum_cons]
    ring

/-! ## Claim theorems -/

/-- C1: `betweenness_centrality(weighed)` — an operation with no `directed`
parameter — equals, entrywise at every node `i`, the sum over all `n` sources
`s` of the dependency increment that source's Brandes accumulation phase
contributes to `i` (processing the traversal's completion stack, which pops
nodes in decreasing-distance order), divided by exactly 2; the halving is
applied unconditionally, for every matrix, symmetric or not, and in both the
weighed and unweighed modes.  A source contributes nothing to its own cell:
only non-source nodes accumulate `delta`. -/
theorem c1_betweenness_is_halved_accumulation (m : AdjMat) (weighed : Bool) :
    betweenness_centrality m weighed =
      (List.range m.n).map (fun i =>
        (∑ s ∈ Finset.range m.n, brandesSourceInc m weighed s i) / 2) ∧
    ∀ s, brandesSourceInc m weighed s s = 0 := by
  constructor
  · have h1 : betweenness_centrality m weighed
        = (List.range m.n).map (fun i =>
            ((List.range m.n).foldl (fun c s =>
              let t := brandesSource m weighed s
              (brandesAccum t.1 t.2.1 s t.2.2 (fun _ => 0) c).2)
              (fun _ => 0)) i / 2) := rfl
    rw [h1, brandes_fold]
    refine List.map_congr_left fun i _ => ?_
    rw [sum_range_eq_list_sum]
    beta_reduce
    rw [zero_add]
  · intro s
    exact brandesAccum_c_source _ _ s _ _ _

/-- C2: for a valid node, `get_neighbours(node, bi=true)` returns exactly the
`get_from(node)` list (outgoing edges only), and `get_neighbours(node,
bi=false)` contains a node iff it lies in `get_from(node)` or in
`get_to(node)` (edge in either direction). -/
theorem c2_get_neighbours_subsumption (m : AdjMat) (node : ℕ)
    (h : node < m.n) :
    get_neighbours m node true = get_from m node ∧
    ∃ lu lf lt,
      get_neighbours m node false = .ok lu ∧
      get_from m node = .ok lf ∧
      get_to m node = .ok lt ∧
      ∀ j, j ∈ lu ↔ (j ∈ lf ∨ j ∈ lt) := by
  have hnot : ¬ m.n ≤ node := by omega
  constructor
  · unfold get_neighbours get_from
    rw [if_neg hnot, if_neg hnot]
    congr 1
  · refine ⟨(List.range m.n).filter (fun i => decide (i ≠ node) &&
        (decide (m.entry node i ≠ NO_EDGE) || decide (m.entry i node ≠ NO_EDGE))),
      (List.range m.n).filter (fun j => decide (j ≠ node) &&
        decide (m.entry node j ≠ NO_EDGE)),
      (List.range m.n).filter (fun i => decide (i ≠ node) &&
        decide (m.entry i node ≠ NO_EDGE)), ?_, ?_, ?_, ?_⟩
    · unfold get_neighbours
      rw [if_neg hnot]
      simp
    · unfold get_from
      rw [if_neg hnot]
    · unfold get_to
      rw [if_neg hnot]
    · intro j
      simp only [List.mem_filter, List.mem_range, Bool.and_eq_true,
        Bool.or_eq_true, decide_eq_true_eq]
      tauto

/-- C6: `count_triangles(false)` equals the number of triples `i < j < k`
with all three upper-triangle entries present (each triangle once);
the raw directed scan counts each directed 3-cycle exactly three times
(once per rotation), and `count_triangles(true)` is that raw total divided
by 3, i.e. the number of directed 3-cycles counted once (least vertex
first). -/
theorem c6_count_triangles_characterization (m : AdjMat) :
    count_triangles m false = (undirTriangles m).card ∧
    count_triangles_directed_raw m = 3 * (dirCycles m).card ∧
    count_triangles m true = (dirCycles m).card := by
  refine ⟨count_triangles_undirected_eq m, ?_, ?_⟩
  · rw [count_triangles_directed_raw_eq, dirCycleTriples_card]
  · have hunf : count_triangles m true = count_triangles_directed_raw m / 3 := rfl
    rw [hunf, count_triangles_directed_raw_eq, dirCycleTriples_card]
    omega

/-- C2 witness: a 3-node matrix with the single directed edge `0 → 1`. -/
theorem c2_get_neighbours_subsumption_witness :
    0 < (⟨3, fun k => if k = 1 then 1 else 0⟩ : AdjMat).n ∧
    (get_neighbours ⟨3, fun k => if k = 1 then 1 else 0⟩ 0 true =
        get_from ⟨3, fun k => if k = 1 then 1 else 0⟩ 0 ∧
      ∃ lu lf lt,
        get_neighbours ⟨3, fun k => if k = 1 then 1 else 0⟩ 0 false = .ok lu ∧
        get_from ⟨3, fun k => if k = 1 then 1 else 0⟩ 0 = .ok lf ∧
        get_to ⟨3, fun k => if k = 1 then 1 else 0⟩ 0 = .ok lt ∧
        ∀ j, j ∈ lu ↔ (j ∈ lf ∨ j ∈ lt)) :=
  ⟨by decide, c2_get_neighbours_subsumption ⟨3, fun k => if k = 1 then 1 else 0⟩ 0
    (by decide)⟩

/-- C3 counterexample: the claim asserts that an in-bounds diagonal write
fails with a distinct invalid-operation error, not the out-of-range kind.  On
the code, `set(0, 0, 5)` on a 2-node matrix fails with the *out-of-range*
kind (the C++ `std::out_of_range` exception), merely with a different
message, so the claimed kind distinction does not exist. -/
theorem c3_diagonal_error_is_out_of_range_kind :
    (0 : ℕ) < (construct 2).n ∧
    ((construct 2).set 0 0 5).1 =
      .error ⟨.outOfRange, "Should not modify diagonal"⟩ ∧
    ErrKind.outOfRange ≠ ErrKind.invalidOperation := by
  refine ⟨by decide, rfl, by decide⟩

/-- C3 (corrected): `set` and `bi_set` fail on out-of-bounds indices with an
out-of-range error, and fail on an in-bounds diagonal write with the *same*
out-of-range kind, distinguished only by the message
"Should not modify diagonal". -/
theorem c3_set_error_taxonomy (m : AdjMat) (i j w : ℕ) :
    (m.set i j w).1 =
      (if i < m.n ∧ j < m.n then
        (if i = j then .error ⟨.outOfRange, "Should not modify diagonal"⟩
         else .ok ())
       else .error ⟨.outOfRange, "Index out of bounds"⟩) ∧
    (m.bi_set i j w).1 =
      (if i < m.n ∧ j < m.n then
        (if i = j then .error ⟨.outOfRange, "Should not modify diagonal"⟩
         else .ok ())
       else .error ⟨.outOfRange, "Index out of bounds"⟩) := by
  constructor
  · rw [show (m.set i j w).1 = (m.set i j w).1 from rfl, set_result]
    split_ifs <;> rfl
  · rw [show (m.bi_set i j w).1 = (m.bi_set i j w).1 from rfl, bi_set_result]
    split_ifs <;> rfl

/-- C4 counterexample: a failing `bash_set` does *not* leave the matrix
unchanged.  On a fresh 2-node matrix, the list `[(0,1,5), (0,0,7)]` fails at
its second line, yet cell `(0,1)` — initially `0` — holds `5` afterwards. -/
theorem c4_bash_set_not_atomic :
    (bash_set (construct 2) [⟨0, 1, 5⟩, ⟨0, 0, 7⟩] false).1 =
      .error ⟨.outOfRange, "Should not modify diagonal"⟩ ∧
    (bash_set (construct 2) [⟨0, 1, 5⟩, ⟨0, 0, 7⟩] false).2.entry 0 1 = 5 ∧
    (construct 2).entry 0 1 = 0 := by
  refine ⟨rfl, by decide, rfl⟩

/-- C4 (corrected): a failing `set` or `bi_set` leaves the matrix unchanged
(the checks precede every buffer write); a failing `bash_set` instead leaves
the matrix equal to the fold of the successfully applied prefix of the line
list — the lines before the first failing line are applied and *not* rolled
back. -/
theorem c4_failure_side_effects :
    (∀ (m : AdjMat) (i j w : ℕ) (e : Err),
        (m.set i j w).1 = .error e → (m.set i j w).2 = m) ∧
    (∀ (m : AdjMat) (i j w : ℕ) (e : Err),
        (m.bi_set i j w).1 = .error e → (m.bi_set i j w).2 = m) ∧
    (∀ (m : AdjMat) (lines : List Line) (bi : Bool) (e : Err),
        (bash_set m lines bi).1 = .error e →
        ∃ k, ∃ hk : k < lines.length,
          (∀ j (hj : j < k),
            (bashApply (applyLines m (lines.take j) bi) bi
              (lines.get ⟨j, Nat.lt_trans hj hk⟩)).1 = .ok ()) ∧
          (bashApply (applyLines m (lines.take k) bi) bi
            (lines.get ⟨k, hk⟩)).1 = .error e ∧
          (bash_set m lines bi).2 = applyLines m (lines.take k) bi) :=
  ⟨fun _ _ _ _ _ h => set_error_state h,
   fun _ _ _ _ _ h => bi_set_error_state h,
   fun m lines bi e h => bash_set_error_decomp lines m bi e h⟩

/-- C4 witness: the corrected statement applied to the concrete failing
`bash_set` call of the counterexample, and to a failing `set`. -/
theorem c4_failure_side_effects_witness :
    (((construct 2).set 0 0 7).1 =
        .error ⟨.outOfRange, "Should not modify diagonal"⟩ ∧
      ((construct 2).set 0 0 7).2 = construct 2) ∧
    ((bash_set (construct 2) [⟨0, 1, 5⟩, ⟨0, 0, 7⟩] false).1 =
        .error ⟨.outOfRange, "Should not modify diagonal"⟩ ∧
      ∃ k, ∃ hk : k < ([⟨0, 1, 5⟩, ⟨0, 0, 7⟩] : List Line).length,
        (∀ j (hj : j < k),
          (bashApply (applyLines (construct 2)
              (([⟨0, 1, 5⟩, ⟨0, 0, 7⟩] : List Line).take j) false) false
            (([⟨0, 1, 5⟩, ⟨0, 0, 7⟩] : List Line).get
              ⟨j, Nat.lt_trans hj hk⟩)).1 = .ok ()) ∧
        (bashApply (applyLines (construct 2)
            (([⟨0, 1, 5⟩, ⟨0, 0, 7⟩] : List Line).take k) false) false
          (([⟨0, 1, 5⟩, ⟨0, 0, 7⟩] : List Line).get ⟨k, hk⟩)).1 =
            .error ⟨.outOfRange, "Should not modify diagonal"⟩ ∧
        (bash_set (construct 2) [⟨0, 1, 5⟩, ⟨0, 0, 7⟩] false).2 =
          applyLines (construct 2)
            (([⟨0, 1, 5⟩, ⟨0, 0, 7⟩] : List Line).take k) false) :=
  ⟨⟨rfl, c4_failure_side_effects.1 (construct 2) 0 0 7 _ rfl⟩,
   ⟨rfl, c4_failure_side_effects.2.2 (construct 2) [⟨0, 1, 5⟩, ⟨0, 0, 7⟩]
      false _ rfl⟩⟩

/-- C7: `shortest_path(start, weighed)` fails out-of-range for `start ≥ n`;
otherwise the returned vector holds `0` at `start` and the sentinel
`INT32_MAX` at every node with no path from `start`, in both the BFS and the
Dijkstra mode. -/
theorem c7_shortest_path_contract (m : AdjMat) (start : ℕ) (weighed : Bool) :
    (m.n ≤ start → shortest_path m start weighed =
      .error ⟨.outOfRange, "Node index out of bounds"⟩) ∧
    (start < m.n → ∃ L, shortest_path m start weighed = .ok L ∧
      L.get? start = some 0 ∧
      ∀ v, v < m.n → ¬ Reaches m start v → L.get? v = some INF) := by
  constructor
  · intro h
    unfold shortest_path
    rw [if_pos h]
  · intro h
    have hinit_b : InvB7 m start (bfsInit start) := by
      refine ⟨by simp [bfsInit], ?_, ?_, ?_⟩
      · intro v hv
        unfold bfsInit at hv
        dsimp only at hv
        by_cases hvs : v = start
        · rw [hvs]
          exact Relation.ReflTransGen.refl
        · rw [if_neg hvs] at hv
          exact absurd rfl hv
      · intro v
        unfold bfsInit
        dsimp only
        split_ifs
        · omega
        · exact le_of_lt INF_pos
      · intro u hu
        have hu2 : u ∈ [start] := hu
        rcases List.mem_singleton.mp hu2 with rfl
        exact ⟨Relation.ReflTransGen.refl, h⟩
    have hinit_d : InvD7 m start (dijInit start) := by
      refine ⟨by simp [dijInit], ?_, ?_, ?_⟩
      · intro v hv
        unfold dijInit at hv
        dsimp only at hv
        by_cases hvs : v = start
        · rw [hvs]
          exact Relation.ReflTransGen.refl
        · rw [if_neg hvs] at hv
          exact absurd rfl hv
      · intro v
        unfold dijInit
        dsimp only
        split_ifs
        · omega
        · exact le_of_lt INF_pos
      · intro p hp
        have hp2 : p ∈ [((0 : ℤ), start)] := hp
        rcases List.mem_singleton.mp hp2 with rfl
        exact ⟨Relation.ReflTransGen.refl, h⟩
    have hfin : (if weighed then (dijRun m (dijFuel m.n) (dijInit start)).dist
          else (bfsRun m (bfsFuel m.n) (bfsInit start)).dist) start = 0 ∧
        ∀ v, (if weighed then (dijRun m (dijFuel m.n) (dijInit start)).dist
          else (bfsRun m (bfsFuel m.n) (bfsInit start)).dist) v ≠ INF →
          Reaches m start v := by
      cases weighed with
      | false =>
        have hi := bfsRun_inv7 m start (bfsFuel m.n) (bfsInit start) hinit_b
        exact ⟨hi.1, hi.2.1⟩
      | true =>
        have hi := dijRun_inv7 m start (dijFuel m.n) (dijInit start) hinit_d
        exact ⟨hi.1, hi.2.1⟩
    refine ⟨(List.range m.n).map
      (if weighed then (dijRun m (dijFuel m.n) (dijInit start)).dist
        else (bfsRun m (bfsFuel m.n) (bfsInit start)).dist), ?_, ?_, ?_⟩
    · unfold shortest_path
      rw [if_neg (by omega)]
    · rw [List.get?_map, List.get?_range h]
      rw [Option.map_some']
      rw [hfin.1]
    · intro v hv hreach
      rw [List.get?_map, List.get?_range hv]
      rw [Option.map_some']
      have hINF : (if weighed then (dijRun m (dijFuel m.n) (dijInit start)).dist
          else (bfsRun m (bfsFuel m.n) (bfsInit start)).dist) v = INF := by
        by_contra hne
        exact hreach (hfin.2 v hne)
      rw [hINF]

/-- C7 witness: on a 2-node edgeless matrix, `start = 5` is rejected and the
run from `start = 0` marks the isolated node `1` unreachable. -/
theorem c7_shortest_path_contract_witness :
    ((construct 2).n ≤ 5 ∧
      shortest_path (construct 2) 5 false =
        .error ⟨.outOfRange, "Node index out of bounds"⟩) ∧
    (0 < (construct 2).n ∧
      ∃ L, shortest_path (construct 2) 0 true = .ok L ∧
        L.get? 0 = some 0 ∧
        ∀ v, v < (construct 2).n → ¬ Reaches (construct 2) 0 v →
          L.get? v = some INF) :=
  ⟨⟨by decide, (c7_shortest_path_contract (construct 2) 5 false).1 (by decide)⟩,
   ⟨by decide, (c7_shortest_path_contract (construct 2) 0 true).2 (by decide)⟩⟩

/-- C8: after constructing an `n`-node matrix and applying any sequence of
`set` / `bi_set` calls (failing calls leave the state untouched), every
in-bounds diagonal read succeeds and returns `0`: the buffer starts
zero-initialised and no write can target a diagonal cell. -/
theorem c8_diagonal_reads_zero (n : ℕ) (ops : List WriteOp) (i : ℕ)
    (hi : i < n) :
    (applyWrites (construct n) ops).get i i = .ok 0 := by
  have hn : (applyWrites (construct n) ops).n = n := by
    rw [applyWrites_n]
    rfl
  have hz := applyWrites_diagZero (construct_diagZero n) ops
  have hi' : i < (applyWrites (construct n) ops).n := by rw [hn]; exact hi
  rw [get_ok hi' hi', hz i hi']

/-- C8 witness: a concrete successful write sequence on a 2-node matrix. -/
theorem c8_diagonal_reads_zero_witness :
    0 < 2 ∧
    (applyWrites (construct 2)
      [WriteOp.bSet 0 1 7, WriteOp.dSet 1 0 3]).get 0 0 = .ok 0 :=
  ⟨by decide,
   c8_diagonal_reads_zero 2 [WriteOp.bSet 0 1 7, WriteOp.dSet 1 0 3] 0
     (by decide)⟩

/-- C9 counterexample: handle allocation is 64-bit post-increment, which
wraps: in the sequence made of `2^64` consecutive `create` calls the handles
are *not* strictly increasing (the last `create` returns `0`, below its
predecessor `2^64 - 1`). -/
theorem c9_handles_wrap :
    ¬ List.Pairwise (· < ·)
        (handlesOf (List.replicate (2 ^ 64) (RegOp.create 1))) := by
  intro hp
  have hK : (2 : ℕ) ^ 64 = 18446744073709551616 := by norm_num
  have hh : handlesOf (List.replicate (2 ^ 64) (RegOp.create 1)) =
      (List.range (2 ^ 64)).map (fun k => (1 + k) % 2 ^ 64) :=
    runReg_replicate (2 ^ 64) 1 [] (by rw [hK]; omega)
  rw [hh] at hp
  have hlen : ((List.range (2 ^ 64)).map
      (fun k => (1 + k) % 2 ^ 64)).length = 2 ^ 64 := by simp
  have hi1 : 2 ^ 64 - 2 < ((List.range (2 ^ 64)).map
      (fun k => (1 + k) % 2 ^ 64)).length := by rw [hlen, hK]; omega
  have hi2 : 2 ^ 64 - 1 < ((List.range (2 ^ 64)).map
      (fun k => (1 + k) % 2 ^ 64)).length := by rw [hlen, hK]; omega
  have hlt := List.pairwise_iff_get.mp hp ⟨2 ^ 64 - 2, hi1⟩ ⟨2 ^ 64 - 1, hi2⟩
    (by rw [Fin.mk_lt_mk, hK]; omega)
  simp only [List.get_eq_getElem, List.getElem_map, List.getElem_range] at hlt
  rw [hK] at hlt
  omega

/-- C9 (corrected): provided the process issues fewer than `2^64` `create`
calls (the counter cannot wrap), the handles returned by successive `create`
calls are strictly increasing (hence never reused, even after `destroy`) and
the first handle is `1`. -/
theorem c9_handles_strictly_increasing (ops : List RegOp)
    (h : countCreates ops < 2 ^ 64) :
    List.Pairwise (· < ·) (handlesOf ops) ∧
      ∀ h1 ∈ (handlesOf ops).head?, h1 = 1 := by
  have hh : handlesOf ops = (List.range (countCreates ops)).map (1 + ·) :=
    runReg_handles ops 1 [] (by omega)
  rw [hh]
  constructor
  · exact (List.pairwise_lt_range _).map _ (fun a b hab => by omega)
  · rcases Nat.eq_zero_or_pos (countCreates ops) with h0 | hpos
    · rw [h0]
      simp
    · rcases Nat.exists_eq_add_of_lt hpos with ⟨k, hk⟩
      rw [show countCreates ops = k + 1 by omega, map_add_range_succ]
      intro x hx
      simp at hx
      omega

/-- C9 witness: a concrete sequence with a destroy interleaved. -/
theorem c9_handles_strictly_increasing_witness :
    countCreates [RegOp.create 4, RegOp.destroy 1, RegOp.create 4] < 2 ^ 64 ∧
    (List.Pairwise (· < ·)
        (handlesOf [RegOp.create 4, RegOp.destroy 1, RegOp.create 4]) ∧
      ∀ h1 ∈ (handlesOf
          [RegOp.create 4, RegOp.destroy 1, RegOp.create 4]).head?, h1 = 1) :=
  ⟨by decide,
   c9_handles_strictly_increasing
     [RegOp.create 4, RegOp.destroy 1, RegOp.create 4] (by decide)⟩

/-- C10: the constructor computes the buffer length `n * n` in 32-bit
unsigned arithmetic, so for every `n ≥ 2^16` the allocation holds
`n*n mod 2^32` cells — strictly fewer than the mathematical `n²` — while
`check_bounds` still accepts every index `< n`; consequently some in-bounds
cell's flat offset falls at or beyond the end of the allocation. -/
theorem c10_alloc_truncation (n : ℕ) (h : 2 ^ 16 ≤ n) :
    allocLen n < n * n ∧
    (∀ i, i < n → (construct n).check_bounds i = true) ∧
    ∃ i j, i < n ∧ j < n ∧ allocLen n ≤ flatOffset32 n i j := by
  have hn : 0 < n := lt_of_lt_of_le (by positivity) h
  have hsq : 2 ^ 32 ≤ n * n := by
    calc (2 : ℕ) ^ 32 = 2 ^ 16 * 2 ^ 16 := by norm_num
    _ ≤ n * n := Nat.mul_le_mul h h
  have halloc : allocLen n < 2 ^ 32 := Nat.mod_lt _ (by positivity)
  refine ⟨lt_of_lt_of_le halloc hsq, ?_, ?_⟩
  · intro i hi
    simp [construct, AdjMat.check_bounds, hi]
  · refine ⟨allocLen n / n, allocLen n % n,
      (Nat.div_lt_iff_lt_mul hn).mpr (lt_of_lt_of_le halloc hsq),
      Nat.mod_lt _ hn, ?_⟩
    have hflat : allocLen n / n * n + allocLen n % n = allocLen n := by
      rw [Nat.mul_comm]
      exact Nat.div_add_mod _ _
    unfold flatOffset32
    rw [hflat, Nat.mod_eq_of_lt halloc]

/-- C10 witness: at `n = 2^16` the allocation is empty (`2^32 mod 2^32 = 0`)
while every index below `2^16` passes the bounds check. -/
theorem c10_alloc_truncation_witness :
    2 ^ 16 ≤ 2 ^ 16 ∧
    (allocLen (2 ^ 16) < 2 ^ 16 * 2 ^ 16 ∧
      (∀ i, i < 2 ^ 16 → (construct (2 ^ 16)).check_bounds i = true) ∧
      ∃ i j, i < 2 ^ 16 ∧ j < 2 ^ 16 ∧
        allocLen (2 ^ 16) ≤ flatOffset32 (2 ^ 16) i j) :=
  ⟨le_refl _, c10_alloc_truncation (2 ^ 16) (le_refl _)⟩

/-- Claim C5: on a matrix all of whose stored (non-sentinel) edge weights
are exactly `1`, and for any valid start node `start < n` (with the node
count inside the `int32` label range), `shortest_path(start, weighed=true)`
(Dijkstra with stale-entry discarding) and `shortest_path(start,
weighed=false)` (BFS) return identical distance vectors. -/
theorem c5_refinement_equivalence (m : AdjMat) (start : ℕ)
    (hstart : start < m.n) (hn : m.n < 2 ^ 31)
    (HW : ∀ i, i < m.n → ∀ j, j < m.n →
      m.entry i j ≠ NO_EDGE → m.entry i j = 1) :
    shortest_path m start true = shortest_path m start false := by
  unfold shortest_path
  rw [if_neg (show ¬ m.n ≤ start by omega)]
  rw [if_neg (show ¬ m.n ≤ start by omega)]
  rw [if_pos (rfl : (true : Bool) = true), if_neg Bool.false_ne_true]
  refine congrArg Except.ok (List.map_congr_left ?_)
  intro v hv
  exact QProp_unique m start _ _ (dij_Q m start hstart HW)
    (bfs_Q m start hstart hn) v (List.mem_range.mp hv)

/-- C5 witness: a concrete two-node matrix with the single unit edge
`0 → 1`; both modes return the same distance vector from node `0`. -/
theorem c5_refinement_equivalence_witness :
    ((0 : ℕ) < (AdjMat.mk 2 (fun k => if k = 1 then 1 else 0)).n ∧
      (AdjMat.mk 2 (fun k => if k = 1 then 1 else 0)).n < 2 ^ 31 ∧
      (∀ i, i < (AdjMat.mk 2 (fun k => if k = 1 then 1 else 0)).n →
        ∀ j, j < (AdjMat.mk 2 (fun k => if k = 1 then 1 else 0)).n →
        (AdjMat.mk 2 (fun k => if k = 1 then 1 else 0)).entry i j ≠ NO_EDGE →
        (AdjMat.mk 2 (fun k => if k = 1 then 1 else 0)).entry i j = 1)) ∧
    shortest_path (AdjMat.mk 2 (fun k => if k = 1 then 1 else 0)) 0 true
      = shortest_path (AdjMat.mk 2 (fun k => if k = 1 then 1 else 0)) 0 false :=
  ⟨⟨by decide, by decide, by decide⟩,
    c5_refinement_equivalence (AdjMat.mk 2 (fun k => if k = 1 then 1 else 0)) 0
      (by decide) (by decide) (by decide)⟩

end GraphSpec
